import Mathlib

/-!
Verification of git-backup: the backup orchestration loop of
`cmd/git-backup/main.go`.

A shallow embedding of `main` and `loadConfig`.  The external collaborators
(`gitbackup.LoadFile`, the `RepositorySource` and `Repository` interfaces,
`os.MkdirAll`) are fields of records whose functions thread an abstract world
`W`, so that the result of every call may depend on everything that happened
before it.  `os.Exit` is an early return carrying the exit code.  A run yields
the chronological list of the calls and log lines it made, and its exit code.

The counters `repoCount` and `errors` are Go `int`s; they are incremented once
per clone attempt, so they cannot wrap before 2^63 attempts and are modelled
as natural numbers.  `time.Now()` and the elapsed duration printed in the
summary are not modelled.  `filepath.Join` is the one of the Go standard
library on Unix, where the separator is the slash.  The function
`uploadBackup` is called from nowhere and is not modelled.
-/

set_option autoImplicit false

namespace GitBackup

/-! ## `path/filepath` (Unix) -/

/-- Splits a path at every separator; the pieces contain no separator. -/
def splitSlash : List Char → List (List Char)
  | [] => [[]]
  | c :: cs =>
    if c = '/' then [] :: splitSlash cs
    else
      match splitSlash cs with
      | [] => [[c]]
      | seg :: segs => (c :: seg) :: segs

/-- Joins path elements with the separator, as `strings.Join(elems, "/")`. -/
def joinSlash : List (List Char) → List Char
  | [] => []
  | [seg] => seg
  | seg :: segs => seg ++ '/' :: joinSlash segs

/-- One path element processed by `filepath.Clean`.  `out` holds the elements
written so far, the last one first.  An empty element and `.` are dropped;
`..` removes the last real element, is dropped at the root of a rooted path,
and is kept when a relative path has nothing left to remove. -/
def cleanStep (rooted : Bool) (out : List (List Char)) (seg : List Char) : List (List Char) :=
  if seg = [] then out
  else if seg = ['.'] then out
  else if seg = ['.', '.'] then
    match out with
    | [] => if rooted then [] else [['.', '.']]
    | top :: below => if top = ['.', '.'] then ['.', '.'] :: top :: below else below
  else seg :: out

/-- The function `filepath.Clean` of the Go standard library on Unix: the
shortest path equivalent to `path` by purely lexical processing.  Multiple
separators count as one, each `.` element is eliminated, each inner `..`
element is eliminated along with the element before it, `..` elements that
begin a rooted path are eliminated, and an empty result is `.`. -/
def Clean (path : List Char) : List Char :=
  if path = [] then ['.']
  else
    let rooted := path.head? == some '/'
    let out := (splitSlash path).foldl (cleanStep rooted) []
    let body := joinSlash out.reverse
    if rooted then '/' :: body
    else if body = [] then ['.'] else body

/-- The function `filepath.Join` of the Go standard library on Unix: the
elements from the first non-empty one on are joined with the separator and the
result is cleaned; if every element is empty the result is the empty string. -/
def Join (elem : List (List Char)) : List Char :=
  match elem.dropWhile (fun e => e = []) with
  | [] => []
  | e :: es => Clean (joinSlash (e :: es))

/-- The function `filepath.Join` on strings, as `main` calls it. -/
def filepathJoin (elem : List String) : String :=
  String.mk (Join (elem.map String.data))

/-- A path element that `filepath.Clean` keeps as it is: not empty, without
separator, and neither `.` nor `..`. -/
def goodSegment (seg : List Char) : Bool :=
  decide (seg ≠ []) && decide ('/' ∉ seg) && decide (seg ≠ ['.']) && decide (seg ≠ ['.', '.'])

/-- A name that is a single path element kept by `filepath.Clean`. -/
def isPathSegment (s : String) : Bool :=
  goodSegment s.data

/-- A name made of path elements kept by `filepath.Clean`, separated by single
separators, such as `org/repo`. -/
def isCleanRelative (s : String) : Bool :=
  (splitSlash s.data).all goodSegment

/-- Whether `filepath.Join` of a root and further elements is rooted. -/
def rootedOf (root : List Char) : Bool :=
  root.head? == some '/'

/-- The elements that `filepath.Clean` has written once it is through the
root, the last one first. -/
def stackOf (root : List Char) : List (List Char) :=
  if root = [] then [] else (splitSlash root).foldl (cleanStep (rootedOf root)) []

/-- The function `filepath.Clean` on strings. -/
def filepathClean (path : String) : String :=
  String.mk (Clean path.data)

/-- What the root contributes to `filepath.Join(root, ...)` before the
further elements: nothing for an empty root or one that cleans to `.`, the
separator for one that cleans to the root directory, and else the cleaned
root followed by the separator. -/
def rootPart (root : List Char) : List Char :=
  if root = [] then []
  else if Clean root = ['.'] then []
  else if Clean root = ['/'] then ['/']
  else Clean root ++ ['/']

/-! ## Collaborators -/

/-- A Go `error` value (its message). -/
abbrev GoError := String

/-- The `Repository` handle returned by a listing: its `FullName` and its
`CloneInto(path, bare)` method. -/
structure Repository (W : Type) where
  FullName : String
  CloneInto : String → Bool → W → Option GoError × W

/-- The `RepositorySource` interface: `GetName()`, `Test()`, `ListRepositories()`. -/
structure RepositorySource (W : Type) where
  GetName : String
  Test : W → Option GoError × W
  ListRepositories : W → Except GoError (List (Repository W)) × W

/-- The `gitbackup.Config` value, as far as `main` uses it: `GetSources()`. -/
structure Config (W : Type) where
  GetSources : List (RepositorySource W)

/-- The two ways `gitbackup.LoadFile` fails that `loadConfig` tells apart. -/
inductive LoadError where
  | notExist
  | other (err : GoError)
  deriving DecidableEq

/-- The process environment: `gitbackup.LoadFile` and `os.MkdirAll`. -/
structure Env (W : Type) where
  LoadFile : String → W → Except LoadError (Config W) × W
  MkdirAll : String → W → Option GoError × W

/-- The command-line flags of `main`. -/
structure Flags where
  configFilePath : String
  targetPath : String
  failAtEnd : Bool
  bareClone : Bool
  printVersion : Bool
  enableInsecure : Bool
  deriving DecidableEq

/-! ## Observable events -/

/-- The log lines of `main` and `loadConfig`. -/
inductive LogMsg where
  | insecure (v : Bool)
  | version
  | built
  | noConfigFile
  | configError (err : GoError)
  | noSources (configFilePath : String)
  | sourceHeader (sourceName : String)
  | failedVerify (sourceName : String) (err : GoError)
  | communicationError (err : GoError)
  | discovered (fullName : String)
  | failedMkdir (err : GoError)
  | failedClone (err : GoError)
  | summary (repoCount errors : Nat)
  deriving DecidableEq

/-- What a run does, in order.  The events of `MkdirAll` and `CloneInto` also
record the name of the source and the full name of the repository being
processed when the call is made. -/
inductive Event where
  | log (m : LogMsg)
  | setInsecureTLS
  | loadFile (path : String) (ok : Bool)
  | test (source : String) (ok : Bool)
  | listRepositories (source : String) (result : Option (List String))
  | mkdirAll (source repo path : String) (ok : Bool)
  | cloneInto (source repo path : String) (bare : Bool) (ok : Bool)
  deriving DecidableEq

/-- How a block of `main` ends: `os.Exit(code)` was called, or control falls
through with the current values of `repoCount`, `errors` and the world. -/
inductive Flow (W : Type) where
  | exit (code : Nat)
  | next (repoCount errors : Nat) (world : W)

/-- Puts the events `evs` before those of the rest of the computation. -/
def emit {W : Type} (evs : List Event) (r : List Event × Flow W) : List Event × Flow W :=
  (evs ++ r.1, r.2)

/-! ## `main` -/

/-- The loop `for _, repo := range repos` of `main` (lines 63-80). -/
def reposLoop {W : Type} (env : Env W) (flags : Flags) (sourceName : String) :
    List (Repository W) → Nat → Nat → W → List Event × Flow W
  | [], repoCount, errors, w => ([], .next repoCount errors w)
  | repo :: rest, repoCount, errors, w =>
    let targetPath := filepathJoin [flags.targetPath, sourceName, repo.FullName]
    match env.MkdirAll targetPath w with
    | (some err, _) =>
      ([.log (.discovered repo.FullName),
        .mkdirAll sourceName repo.FullName targetPath false,
        .log (.failedMkdir err)], .exit 100)
    | (none, w1) =>
      match repo.CloneInto targetPath flags.bareClone w1 with
      | (some err, w2) =>
        if flags.failAtEnd == false then
          ([.log (.discovered repo.FullName),
            .mkdirAll sourceName repo.FullName targetPath true,
            .cloneInto sourceName repo.FullName targetPath flags.bareClone false,
            .log (.failedClone err)], .exit 100)
        else
          emit [.log (.discovered repo.FullName),
                .mkdirAll sourceName repo.FullName targetPath true,
                .cloneInto sourceName repo.FullName targetPath flags.bareClone false,
                .log (.failedClone err)]
            (reposLoop env flags sourceName rest (repoCount + 1) (errors + 1) w2)
      | (none, w2) =>
        emit [.log (.discovered repo.FullName),
              .mkdirAll sourceName repo.FullName targetPath true,
              .cloneInto sourceName repo.FullName targetPath flags.bareClone true]
          (reposLoop env flags sourceName rest (repoCount + 1) errors w2)

/-- The loop `for _, source := range sources` of `main` (lines 51-81). -/
def sourcesLoop {W : Type} (env : Env W) (flags : Flags) :
    List (RepositorySource W) → Nat → Nat → W → List Event × Flow W
  | [], repoCount, errors, w => ([], .next repoCount errors w)
  | source :: rest, repoCount, errors, w =>
    let sourceName := source.GetName
    match source.Test w with
    | (some err, _) =>
      ([.log (.sourceHeader sourceName),
        .test sourceName false,
        .log (.failedVerify sourceName err)], .exit 110)
    | (none, w1) =>
      match source.ListRepositories w1 with
      | (.error err, _) =>
        ([.log (.sourceHeader sourceName),
          .test sourceName true,
          .listRepositories sourceName none,
          .log (.communicationError err)], .exit 100)
      | (.ok repos, w2) =>
        emit [.log (.sourceHeader sourceName),
              .test sourceName true,
              .listRepositories sourceName (some (repos.map (fun r => r.FullName)))]
          (match reposLoop env flags sourceName repos repoCount errors w2 with
           | (evs, .exit code) => (evs, .exit code)
           | (evs, .next repoCount1 errors1 w3) =>
             emit evs (sourcesLoop env flags rest repoCount1 errors1 w3))

/-- The result of `loadConfig`: the configuration, or the process has exited. -/
inductive Loaded (W : Type) where
  | exit (code : Nat)
  | config (c : Config W) (world : W)

/-- The function `loadConfig` (lines 89-100). -/
def loadConfig {W : Type} (env : Env W) (flags : Flags) (w : W) : List Event × Loaded W :=
  match env.LoadFile flags.configFilePath w with
  | (.error .notExist, _) =>
    ([.loadFile flags.configFilePath false, .log .noConfigFile], .exit 1)
  | (.error (.other err), _) =>
    ([.loadFile flags.configFilePath false, .log (.configError err)], .exit 1)
  | (.ok config, w1) =>
    ([.loadFile flags.configFilePath true], .config config w1)

/-- A finished run: what it did, and the exit code of the process. -/
structure Run where
  trace : List Event
  exitCode : Nat
  deriving DecidableEq

/-- The function `main` (lines 28-87). -/
def main {W : Type} (env : Env W) (flags : Flags) (w : W) : Run :=
  if flags.printVersion then
    ⟨[.log (.insecure flags.enableInsecure), .log .version, .log .built], 0⟩
  else
    let start : List Event :=
      if flags.enableInsecure then [.log (.insecure true), .setInsecureTLS]
      else [.log (.insecure false)]
    match loadConfig env flags w with
    | (evs, .exit code) => ⟨start ++ evs, code⟩
    | (evs, .config config w1) =>
      let sources := config.GetSources
      if sources.length = 0 then
        ⟨start ++ evs ++ [.log (.noSources flags.configFilePath)], 111⟩
      else
        match sourcesLoop env flags sources 0 0 w1 with
        | (evs1, .exit code) => ⟨start ++ evs ++ evs1, code⟩
        | (evs1, .next repoCount errors _) =>
          ⟨start ++ evs ++ evs1 ++ [.log (.summary repoCount errors)],
            if errors > 0 then 100 else 0⟩

/-! ## Reading a trace -/

/-- The exit code an event forces, if it is one that aborts the run: a failed
`Test`, a failed `ListRepositories`, a failed `MkdirAll`, and a failed
`CloneInto` when `failAtEnd` is off. -/
def Event.fatalCode (failAtEnd : Bool) : Event → Option Nat
  | .test _ false => some 110
  | .listRepositories _ none => some 100
  | .mkdirAll _ _ _ false => some 100
  | .cloneInto _ _ _ _ false => if failAtEnd then none else some 100
  | _ => none

/-- A failed `Test`, `ListRepositories` or `MkdirAll`. -/
def Event.isSetupFailure : Event → Bool
  | .test _ false => true
  | .listRepositories _ none => true
  | .mkdirAll _ _ _ false => true
  | _ => false

/-- A failed `CloneInto`. -/
def Event.isCloneFailure : Event → Bool
  | .cloneInto _ _ _ _ false => true
  | _ => false

/-- A call of `Test`, `ListRepositories`, `MkdirAll` or `CloneInto`. -/
def Event.isBackupCall : Event → Bool
  | .test _ _ => true
  | .listRepositories _ _ => true
  | .mkdirAll _ _ _ _ => true
  | .cloneInto _ _ _ _ _ => true
  | _ => false

/-- The summary line. -/
def Event.isSummary : Event → Bool
  | .log (.summary _ _) => true
  | _ => false

/-- The `CloneInto` attempts of a trace, as (source name, repository full name). -/
def cloneAttempts : List Event → List (String × String)
  | [] => []
  | .cloneInto s r _ _ _ :: evs => (s, r) :: cloneAttempts evs
  | _ :: evs => cloneAttempts evs

/-- The repositories returned by the successful listings of a trace, as
(source name, repository full name). -/
def listed : List Event → List (String × String)
  | [] => []
  | .listRepositories s (some rs) :: evs => rs.map (fun r => (s, r)) ++ listed evs
  | _ :: evs => listed evs

/-- The sources whose `ListRepositories` was called, in order. -/
def listedSources : List Event → List String
  | [] => []
  | .listRepositories s _ :: evs => s :: listedSources evs
  | _ :: evs => listedSources evs

/-- The number of failed `CloneInto` attempts of a trace. -/
def failedClones (evs : List Event) : Nat :=
  (evs.filter Event.isCloneFailure).length

/-- Whether the log line `l` is the one that reports the fatal event. -/
def Event.reportedBy : Event → LogMsg → Bool
  | .test s false, .failedVerify s1 _ => s == s1
  | .listRepositories _ none, .communicationError _ => true
  | .mkdirAll _ _ _ false, .failedMkdir _ => true
  | .cloneInto _ _ _ _ false, .failedClone _ => true
  | _, _ => false

/-- An event that neither aborts the run nor is the summary line. -/
def Event.quiet (failAtEnd : Bool) (e : Event) : Bool :=
  (e.fatalCode failAtEnd).isNone && !e.isSummary

/-- The path and the bare flag of a `MkdirAll` or `CloneInto` event are the
ones `main` computes from the flags, the source name and the full name. -/
def Event.pathOK (flags : Flags) : Event → Prop
  | .mkdirAll s r p _ => p = filepathJoin [flags.targetPath, s, r]
  | .cloneInto s r p b _ => p = filepathJoin [flags.targetPath, s, r] ∧ b = flags.bareClone
  | _ => True

/-- The trace of a block that called `os.Exit(code)` ends with a fatal event
and the log line reporting it, after quiet events only; the trace of a block
that falls through is quiet. -/
def Shape {W : Type} (failAtEnd : Bool) (r : List Event × Flow W) : Prop :=
  match r.2 with
  | .exit code => ∃ pre e l, r.1 = pre ++ [e, Event.log l] ∧
      e.fatalCode failAtEnd = some code ∧ e.reportedBy l = true ∧
      ∀ x ∈ pre, x.quiet failAtEnd = true
  | .next _ _ _ => ∀ x ∈ r.1, x.quiet failAtEnd = true

/-- The counters of a block that falls through have grown by the number of
clone attempts and of failed clone attempts of its trace. -/
def Tally {W : Type} (rc er : Nat) (r : List Event × Flow W) : Prop :=
  match r.2 with
  | .exit _ => True
  | .next rc1 er1 _ => rc1 = rc + (cloneAttempts r.1).length ∧ er1 = er + failedClones r.1

/-- The listing part of a trace of `reposLoop` is empty, and when the loop
falls through it has attempted every repository once, in order. -/
def Attempted {W : Type} (sourceName : String) (repos : List (Repository W))
    (r : List Event × Flow W) : Prop :=
  listed r.1 = [] ∧ listedSources r.1 = [] ∧
  match r.2 with
  | .exit _ => True
  | .next _ _ _ => cloneAttempts r.1 = repos.map (fun x => (sourceName, x.FullName))

/-- When `sourcesLoop` falls through, every source was listed, in order, and
the clone attempts are the listed repositories, in order. -/
def Covered {W : Type} (sources : List (RepositorySource W)) (r : List Event × Flow W) : Prop :=
  match r.2 with
  | .exit _ => True
  | .next _ _ _ => listedSources r.1 = sources.map (fun s => s.GetName) ∧
      cloneAttempts r.1 = listed r.1

/-- An event that is neither a call of `Test`, `ListRepositories`, `MkdirAll`
or `CloneInto` nor the summary line. -/
def Event.inert (e : Event) : Bool :=
  !e.isBackupCall && !e.isSummary

/-- The end of `main` after the loop over the sources (lines 82-87): the
summary line and the exit code, or the exit code of the loop. -/
def finish {W : Type} (pre : List Event) : List Event × Flow W → Run
  | (evs, .exit code) => ⟨pre ++ evs, code⟩
  | (evs, .next repoCount errors _) =>
    ⟨pre ++ evs ++ [.log (.summary repoCount errors)], if errors > 0 then 100 else 0⟩

/-- The events of `main` before the loop when the configuration loads. -/
def startEvents (flags : Flags) : List Event :=
  (if flags.enableInsecure then [Event.log (.insecure true), Event.setInsecureTLS]
   else [Event.log (.insecure false)]) ++ [Event.loadFile flags.configFilePath true]

/-- The paths passed to `MkdirAll`, in order. -/
def mkdirPaths (evs : List Event) : List String :=
  evs.filterMap (fun e => match e with
    | .mkdirAll _ _ p _ => some p
    | _ => none)

/-- The path and the bare flag passed to `CloneInto`, in order. -/
def clonePaths (evs : List Event) : List (String × Bool) :=
  evs.filterMap (fun e => match e with
    | .cloneInto _ _ p b _ => some (p, b)
    | _ => none)

/-- The target path of a (source name, repository full name) pair (line 65). -/
def targetPathOf (flags : Flags) (sr : String × String) : String :=
  filepathJoin [flags.targetPath, sr.1, sr.2]

/-- The paths passed to `MkdirAll` and `CloneInto` by a block are the target
paths of the repositories `wanted`, one call each and in order, when the block
falls through, and of the first of them when the block called `os.Exit`. -/
def PathsPassed {W : Type} (flags : Flags) (wanted : List (String × String))
    (r : List Event × Flow W) : Prop :=
  match r.2 with
  | .exit _ =>
    (∃ rest, wanted.map (targetPathOf flags) = mkdirPaths r.1 ++ rest) ∧
    ∃ rest, wanted.map (fun sr => (targetPathOf flags sr, flags.bareClone))
      = clonePaths r.1 ++ rest
  | .next _ _ _ =>
    mkdirPaths r.1 = wanted.map (targetPathOf flags) ∧
    clonePaths r.1 = wanted.map (fun sr => (targetPathOf flags sr, flags.bareClone))

/-- A call as a collaborator receives it. -/
inductive Call where
  | test (source : String)
  | listRepositories (source : String)
  | mkdirAll (path : String)
  | cloneInto (repo path : String) (bare : Bool)
  deriving DecidableEq

/-- A repository that writes the `CloneInto` call it receives into the world. -/
def recordingRepo (name : String) : Repository (List Call) :=
  ⟨name, fun path bare w => (none, w ++ [Call.cloneInto name path bare])⟩

/-- A source that writes the calls it receives into the world and lists the
repositories named in `sp.2`. -/
def recordingSource (sp : String × List String) : RepositorySource (List Call) :=
  ⟨sp.1, fun w => (none, w ++ [Call.test sp.1]),
    fun w => (.ok (sp.2.map recordingRepo), w ++ [Call.listRepositories sp.1])⟩

/-- An environment that writes the `MkdirAll` calls it receives into the
world. -/
def recordingEnv (sources : List (String × List String)) : Env (List Call) :=
  ⟨fun _ w => (.ok ⟨sources.map recordingSource⟩, w),
    fun path w => (none, w ++ [Call.mkdirAll path])⟩

/-- The calls that the repositories `names` of source `s` must receive. -/
def repoCalls (flags : Flags) (s : String) (names : List String) : List Call :=
  names.flatMap (fun r =>
    [Call.mkdirAll (filepathJoin [flags.targetPath, s, r]),
     Call.cloneInto r (filepathJoin [flags.targetPath, s, r]) flags.bareClone])

/-- The calls that the sources `sources` and their repositories must receive. -/
def sourceCalls (flags : Flags) (sources : List (String × List String)) : List Call :=
  sources.flatMap (fun sp =>
    [Call.test sp.1, Call.listRepositories sp.1] ++ repoCalls flags sp.1 sp.2)

/-! ## Sample collaborators -/

/-- A repository whose clone succeeds or fails as told. -/
def sampleRepo (name : String) (ok : Bool) : Repository Unit :=
  ⟨name, fun _ _ w => (if ok then none else some "clone failed", w)⟩

/-- A source whose test succeeds or fails as told and whose listing returns
`repos`, or fails when there is none. -/
def sampleSource (name : String) (testOk : Bool) (repos : Option (List (Repository Unit))) :
    RepositorySource Unit :=
  ⟨name, fun w => (if testOk then none else some "unauthorized", w),
    fun w => (match repos with
      | some rs => .ok rs
      | none => .error "listing failed", w)⟩

/-- An environment whose configuration file holds `sources` and in which the
directories named in `denied` cannot be created. -/
def sampleEnv (sources : List (RepositorySource Unit)) (denied : List String) : Env Unit :=
  ⟨fun _ w => (.ok ⟨sources⟩, w),
    fun path w => (if path ∈ denied then some "permission denied" else none, w)⟩

/-- Flags of a run with the default paths. -/
def sampleFlags (failAtEnd bareClone : Bool) : Flags :=
  ⟨"git-backup.yml", "backup", failAtEnd, bareClone, false, false⟩

/-- A run over `sources` with the default paths, every directory creatable. -/
def sampleRun (sources : List (RepositorySource Unit)) (failAtEnd : Bool) : Run :=
  main (sampleEnv sources []) (sampleFlags failAtEnd false) ()

/-- Two sources with one repository each; the second clone fails. -/
def twoSources : List (RepositorySource Unit) :=
  [sampleSource "one" true (some [sampleRepo "a/b" true]),
   sampleSource "two" true (some [sampleRepo "c/d" false])]

/-- One source whose connectivity test fails. -/
def brokenSource : List (RepositorySource Unit) :=
  [sampleSource "one" false (some [sampleRepo "a/b" true])]

/-- One source that lists no repository. -/
def emptySource : List (RepositorySource Unit) :=
  [sampleSource "one" true (some [])]

/-- One source whose listing fails. -/
def unlistable : List (RepositorySource Unit) :=
  [sampleSource "one" true none]

/-- One source with a single repository whose clone fails. -/
def oneFailing : List (RepositorySource Unit) :=
  [sampleSource "one" true (some [sampleRepo "a/b" false])]

/-- A failing source between a working one and one that is never reached. -/
def brokenSecond : List (RepositorySource Unit) :=
  [sampleSource "one" true (some [sampleRepo "a/b" true]),
   sampleSource "two" false (some [sampleRepo "c/d" true]),
   sampleSource "three" true (some [sampleRepo "e/f" true])]

/-- The source and repository of the path example. -/
def workSource : List (RepositorySource Unit) :=
  [sampleSource "work" true (some [sampleRepo "team/project" true])]

/-! ## Lexical facts about `filepath.Join` -/

theorem splitSlash_ne_nil (p : List Char) : splitSlash p ≠ [] := by
  cases p with
  | nil => simp [splitSlash]
  | cons c cs =>
    rw [splitSlash]
    split
    · simp
    · split <;> simp

theorem splitSlash_cons_ne {c : Char} (cs : List Char) (h : c ≠ '/') :
    ∃ seg segs, splitSlash cs = seg :: segs ∧ splitSlash (c :: cs) = (c :: seg) :: segs := by
  rcases hs : splitSlash cs with _ | ⟨seg, segs⟩
  · exact absurd hs (splitSlash_ne_nil cs)
  · exact ⟨seg, segs, rfl, by rw [splitSlash, if_neg h, hs]⟩

theorem splitSlash_cons_slash (cs : List Char) : splitSlash ('/' :: cs) = [] :: splitSlash cs := by
  rw [splitSlash, if_pos rfl]

theorem splitSlash_noSlash (p : List Char) : ∀ seg ∈ splitSlash p, '/' ∉ seg := by
  induction p with
  | nil => simp [splitSlash]
  | cons c cs ih =>
    by_cases h : c = '/'
    · subst h
      rw [splitSlash_cons_slash]
      intro seg hseg
      rcases List.mem_cons.mp hseg with rfl | hseg
      · simp
      · exact ih seg hseg
    · obtain ⟨seg0, segs, h1, h2⟩ := splitSlash_cons_ne cs h
      rw [h2]
      rw [h1] at ih
      intro seg hseg
      rcases List.mem_cons.mp hseg with rfl | hseg
      · intro hmem
        rcases List.mem_cons.mp hmem with hc | hc
        · exact h hc.symm
        · exact ih seg0 (by simp) hc
      · exact ih seg (List.mem_cons_of_mem _ hseg)

theorem splitSlash_append (a b : List Char) :
    splitSlash (a ++ '/' :: b) = splitSlash a ++ splitSlash b := by
  induction a with
  | nil => simp [splitSlash]
  | cons c a ih =>
    by_cases h : c = '/'
    · subst h
      rw [List.cons_append, splitSlash_cons_slash, splitSlash_cons_slash, ih, List.cons_append]
    · obtain ⟨seg0, segs, h1, h2⟩ := splitSlash_cons_ne a h
      obtain ⟨seg1, segs1, h3, h4⟩ := splitSlash_cons_ne (a ++ '/' :: b) h
      rw [List.cons_append, h4, h2]
      rw [ih, h1, List.cons_append] at h3
      simp only [List.cons.injEq] at h3
      rw [List.cons_append, ← h3.1, ← h3.2]

theorem splitSlash_of_noSlash (s : List Char) (h : '/' ∉ s) : splitSlash s = [s] := by
  induction s with
  | nil => rfl
  | cons c cs ih =>
    have hc : c ≠ '/' := fun hc => h (by simp [hc])
    have hcs : '/' ∉ cs := fun hm => h (List.mem_cons_of_mem _ hm)
    obtain ⟨seg0, segs, h1, h2⟩ := splitSlash_cons_ne cs hc
    rw [ih hcs] at h1
    simp only [List.cons.injEq] at h1
    rw [h2, ← h1.1, ← h1.2]

theorem joinSlash_cons_cons (a b : List Char) (l : List (List Char)) :
    joinSlash (a :: b :: l) = a ++ '/' :: joinSlash (b :: l) := rfl

theorem joinSlash_splitSlash (p : List Char) : joinSlash (splitSlash p) = p := by
  induction p with
  | nil => rfl
  | cons c cs ih =>
    by_cases h : c = '/'
    · subst h
      rw [splitSlash_cons_slash]
      rcases hs : splitSlash cs with _ | ⟨seg, segs⟩
      · exact absurd hs (splitSlash_ne_nil cs)
      · rw [joinSlash_cons_cons, ← hs, ih]; rfl
    · obtain ⟨seg0, segs, h1, h2⟩ := splitSlash_cons_ne cs h
      rw [h2]
      rw [h1] at ih
      cases segs with
      | nil =>
        simp only [joinSlash] at ih ⊢
        rw [ih]
      | cons seg1 segs =>
        rw [joinSlash_cons_cons] at ih ⊢
        rw [List.cons_append, ih]

theorem splitSlash_joinSlash :
    ∀ segs : List (List Char), segs ≠ [] → (∀ seg ∈ segs, '/' ∉ seg) →
      splitSlash (joinSlash segs) = segs
  | [], h, _ => absurd rfl h
  | [seg], _, hs => by
    simp only [joinSlash]
    exact splitSlash_of_noSlash seg (hs seg (by simp))
  | a :: b :: l, _, hs => by
    rw [joinSlash_cons_cons, splitSlash_append,
      splitSlash_of_noSlash a (hs a (by simp)),
      splitSlash_joinSlash (b :: l) (by simp) (fun seg h => hs seg (List.mem_cons_of_mem _ h))]
    rfl


theorem goodSegment_iff {seg : List Char} :
    goodSegment seg = true ↔ seg ≠ [] ∧ '/' ∉ seg ∧ seg ≠ ['.'] ∧ seg ≠ ['.', '.'] := by
  simp [goodSegment, and_assoc]

theorem cleanStep_good (rooted : Bool) (out : List (List Char)) {seg : List Char}
    (h : goodSegment seg = true) : cleanStep rooted out seg = seg :: out := by
  obtain ⟨h1, -, h3, h4⟩ := goodSegment_iff.mp h
  simp [cleanStep, h1, h3, h4]

theorem foldl_cleanStep_good (rooted : Bool) :
    ∀ (segs : List (List Char)) (out : List (List Char)),
      (∀ seg ∈ segs, goodSegment seg = true) →
      segs.foldl (cleanStep rooted) out = segs.reverse ++ out
  | [], out, _ => rfl
  | seg :: segs, out, h => by
    rw [List.foldl_cons, cleanStep_good rooted out (h seg (by simp)),
      foldl_cleanStep_good rooted segs _ (fun x hx => h x (List.mem_cons_of_mem _ hx))]
    simp

theorem cleanStep_noSlash (rooted : Bool) (out : List (List Char)) (seg : List Char)
    (hout : ∀ x ∈ out, '/' ∉ x) (hseg : '/' ∉ seg) :
    ∀ x ∈ cleanStep rooted out seg, '/' ∉ x := by
  unfold cleanStep
  split
  · exact hout
  · split
    · exact hout
    · split
      · split
        · split <;> simp
        · split
          · intro x hx
            rcases List.mem_cons.mp hx with rfl | hx
            · simp
            · exact hout x hx
          · intro x hx
            exact hout x (List.mem_cons_of_mem _ hx)
      · intro x hx
        rcases List.mem_cons.mp hx with rfl | hx
        · exact hseg
        · exact hout x hx

theorem foldl_cleanStep_noSlash (rooted : Bool) :
    ∀ (segs : List (List Char)) (out : List (List Char)),
      (∀ x ∈ out, '/' ∉ x) → (∀ seg ∈ segs, '/' ∉ seg) →
      ∀ x ∈ segs.foldl (cleanStep rooted) out, '/' ∉ x
  | [], out, hout, _ => hout
  | seg :: segs, out, hout, hsegs => by
    rw [List.foldl_cons]
    exact foldl_cleanStep_noSlash rooted segs _
      (cleanStep_noSlash rooted out seg hout (hsegs seg (by simp)))
      (fun x hx => hsegs x (List.mem_cons_of_mem _ hx))

theorem stackOf_noSlash (root : List Char) : ∀ x ∈ stackOf root, '/' ∉ x := by
  unfold stackOf
  split
  · simp
  · exact foldl_cleanStep_noSlash _ _ _ (by simp) (splitSlash_noSlash root)

/-- What `filepath.Join(root, s, f)` is when `s` is one clean path element and
`f` is made of clean path elements: the elements left of the root, then `s`,
then the elements of `f`. -/
theorem Join_root_segment_relative (root s f : List Char) (hs : goodSegment s = true)
    (hf : ∀ seg ∈ splitSlash f, goodSegment seg = true) :
    Join [root, s, f]
      = if rootedOf root then '/' :: joinSlash ((stackOf root).reverse ++ s :: splitSlash f)
        else if joinSlash ((stackOf root).reverse ++ s :: splitSlash f) = [] then ['.']
        else joinSlash ((stackOf root).reverse ++ s :: splitSlash f) := by
  obtain ⟨hs1, hs2, -, -⟩ := goodSegment_iff.mp hs
  have hsf : ∀ seg ∈ s :: splitSlash f, goodSegment seg = true := by
    intro seg hseg
    rcases List.mem_cons.mp hseg with rfl | hseg
    · exact hs
    · exact hf seg hseg
  cases root with
  | nil =>
    obtain ⟨c, cs, rfl⟩ := List.exists_cons_of_ne_nil hs1
    have hc : c ≠ '/' := fun hc => hs2 (by simp [hc])
    have hsplit : splitSlash (c :: cs ++ '/' :: f) = (c :: cs) :: splitSlash f := by
      rw [splitSlash_append, splitSlash_of_noSlash _ hs2]; rfl
    have hjoin : Join [[], c :: cs, f] = Clean (c :: cs ++ '/' :: f) := by
      simp [Join, joinSlash]
    have hrooted : ((c :: cs ++ '/' :: f).head? == some '/') = false := by
      simp [hc]
    rw [hjoin]
    unfold Clean
    simp only [hrooted, hsplit, foldl_cleanStep_good false _ [] hsf]
    simp [rootedOf, stackOf]
  | cons c cs =>
    have hsplit : splitSlash (c :: cs ++ '/' :: (s ++ '/' :: f))
        = splitSlash (c :: cs) ++ s :: splitSlash f := by
      rw [splitSlash_append, splitSlash_append, splitSlash_of_noSlash _ hs2]; rfl
    have hjoin : Join [c :: cs, s, f] = Clean (c :: cs ++ '/' :: (s ++ '/' :: f)) := by
      simp [Join, joinSlash]
    have hrooted : ((c :: cs ++ '/' :: (s ++ '/' :: f)).head? == some '/')
        = rootedOf (c :: cs) := by
      simp [rootedOf]
    rw [hjoin]
    unfold Clean
    simp only [hrooted, hsplit, List.foldl_append,
      foldl_cleanStep_good (rootedOf (c :: cs)) _ _ hsf]
    simp [stackOf]

/-- Two joins under the same root are equal only for the same segment and the
same relative name. -/
theorem Join_injective (root s1 f1 s2 f2 : List Char) (hs1 : goodSegment s1 = true)
    (hs2 : goodSegment s2 = true) (hf1 : ∀ seg ∈ splitSlash f1, goodSegment seg = true)
    (hf2 : ∀ seg ∈ splitSlash f2, goodSegment seg = true)
    (h : Join [root, s1, f1] = Join [root, s2, f2]) : s1 = s2 ∧ f1 = f2 := by
  rw [Join_root_segment_relative root s1 f1 hs1 hf1,
    Join_root_segment_relative root s2 f2 hs2 hf2] at h
  have hno : ∀ (s f : List Char), goodSegment s = true →
      (∀ seg ∈ splitSlash f, goodSegment seg = true) →
      ∀ seg ∈ (stackOf root).reverse ++ s :: splitSlash f, '/' ∉ seg := by
    intro s f hs hf seg hseg
    rcases List.mem_append.mp hseg with hseg | hseg
    · exact stackOf_noSlash root seg (List.mem_reverse.mp hseg)
    · rcases List.mem_cons.mp hseg with rfl | hseg
      · exact (goodSegment_iff.mp hs).2.1
      · exact (goodSegment_iff.mp (hf seg hseg)).2.1
  have hback : ∀ (s f : List Char), goodSegment s = true →
      (∀ seg ∈ splitSlash f, goodSegment seg = true) →
      splitSlash (joinSlash ((stackOf root).reverse ++ s :: splitSlash f))
        = (stackOf root).reverse ++ s :: splitSlash f :=
    fun s f hs hf => splitSlash_joinSlash _ (by simp) (hno s f hs hf)
  have hne : ∀ (s f : List Char), goodSegment s = true →
      (∀ seg ∈ splitSlash f, goodSegment seg = true) →
      joinSlash ((stackOf root).reverse ++ s :: splitSlash f) ≠ [] := by
    intro s f hs hf hnil
    have h1 := hback s f hs hf
    rw [hnil] at h1
    have h2 : s ∈ splitSlash [] := by rw [h1]; simp
    simp [splitSlash] at h2
    exact (goodSegment_iff.mp hs).1 h2
  have hbody : joinSlash ((stackOf root).reverse ++ s1 :: splitSlash f1)
      = joinSlash ((stackOf root).reverse ++ s2 :: splitSlash f2) := by
    cases hr : rootedOf root with
    | true => simpa [hr] using h
    | false => simpa [hr, hne s1 f1 hs1 hf1, hne s2 f2 hs2 hf2] using h
  have hlists := congrArg splitSlash hbody
  rw [hback s1 f1 hs1 hf1, hback s2 f2 hs2 hf2] at hlists
  have htail := List.append_cancel_left hlists
  simp only [List.cons.injEq] at htail
  refine ⟨htail.1, ?_⟩
  rw [← joinSlash_splitSlash f1, ← joinSlash_splitSlash f2, htail.2]

theorem filepathJoin_injective (root s1 r1 s2 r2 : String) (hs1 : isPathSegment s1 = true)
    (hs2 : isPathSegment s2 = true) (hr1 : isCleanRelative r1 = true)
    (hr2 : isCleanRelative r2 = true)
    (h : filepathJoin [root, s1, r1] = filepathJoin [root, s2, r2]) : s1 = s2 ∧ r1 = r2 := by
  unfold filepathJoin at h
  simp only [List.map_cons, List.map_nil] at h
  have h := congrArg String.data h
  simp only at h
  obtain ⟨h1, h2⟩ := Join_injective root.data s1.data r1.data s2.data r2.data hs1 hs2
    (by simpa [isCleanRelative] using hr1) (by simpa [isCleanRelative] using hr2) h
  exact ⟨String.ext h1, String.ext h2⟩


theorem joinSlash_append :
    ∀ (a b : List (List Char)), a ≠ [] → b ≠ [] →
      joinSlash (a ++ b) = joinSlash a ++ '/' :: joinSlash b
  | [], _, h, _ => absurd rfl h
  | [x], [], _, h => absurd rfl h
  | [x], y :: l, _, _ => rfl
  | x :: x1 :: l, b, _, hb => by
    rw [List.cons_append, List.cons_append, joinSlash_cons_cons, joinSlash_cons_cons,
      ← List.cons_append, joinSlash_append (x1 :: l) b (by simp) hb]
    simp

/-- Under a root made of clean path elements, relative, `Join` is the plain
concatenation with separators. -/
theorem Join_clean_relative_root (root s f : List Char)
    (hroot : ∀ seg ∈ splitSlash root, goodSegment seg = true) (hs : goodSegment s = true)
    (hf : ∀ seg ∈ splitSlash f, goodSegment seg = true) :
    Join [root, s, f] = root ++ '/' :: (s ++ '/' :: f) := by
  rw [Join_root_segment_relative root s f hs hf]
  have hne : root ≠ [] := by
    rintro rfl
    have := hroot [] (by simp [splitSlash])
    simp [goodSegment] at this
  obtain ⟨c, cs, rfl⟩ := List.exists_cons_of_ne_nil hne
  have hc : c ≠ '/' := by
    rintro rfl
    have := hroot [] (by rw [splitSlash_cons_slash]; simp)
    simp [goodSegment] at this
  have hrooted : rootedOf (c :: cs) = false := by simp [rootedOf, hc]
  have hstack : stackOf (c :: cs) = (splitSlash (c :: cs)).reverse := by
    unfold stackOf
    rw [if_neg (by simp), foldl_cleanStep_good _ _ _ hroot]
    simp
  have hbody : joinSlash ((stackOf (c :: cs)).reverse ++ s :: splitSlash f)
      = c :: cs ++ '/' :: (s ++ '/' :: f) := by
    rw [hstack, List.reverse_reverse,
      joinSlash_append _ _ (splitSlash_ne_nil _) (by simp), joinSlash_splitSlash]
    rcases hsf : splitSlash f with _ | ⟨seg, segs⟩
    · exact absurd hsf (splitSlash_ne_nil f)
    · rw [joinSlash_cons_cons, ← hsf, joinSlash_splitSlash]
  rw [hbody, hrooted]
  simp

theorem filepathJoin_clean_relative_root (root s r : String) (hroot : isCleanRelative root = true)
    (hs : isPathSegment s = true) (hr : isCleanRelative r = true) :
    filepathJoin [root, s, r] = root ++ "/" ++ s ++ "/" ++ r := by
  unfold filepathJoin
  simp only [List.map_cons, List.map_nil]
  rw [Join_clean_relative_root root.data s.data r.data (by simpa [isCleanRelative] using hroot)
    hs (by simpa [isCleanRelative] using hr)]
  apply String.ext
  simp [String.data_append]

theorem cleanStep_kept (rooted : Bool) (out : List (List Char)) (seg : List Char)
    (hout : ∀ x ∈ out, x ≠ [] ∧ x ≠ ['.']) :
    ∀ x ∈ cleanStep rooted out seg, x ≠ [] ∧ x ≠ ['.'] := by
  unfold cleanStep
  split
  · exact hout
  · split
    · exact hout
    · split
      · split
        · split <;> simp
        · split
          · intro x hx
            rcases List.mem_cons.mp hx with rfl | hx
            · simp
            · exact hout x hx
          · intro x hx
            exact hout x (List.mem_cons_of_mem _ hx)
      · rename_i h1 h2 h3
        intro x hx
        rcases List.mem_cons.mp hx with rfl | hx
        · exact ⟨h1, h2⟩
        · exact hout x hx

theorem foldl_cleanStep_kept (rooted : Bool) :
    ∀ (segs : List (List Char)) (out : List (List Char)),
      (∀ x ∈ out, x ≠ [] ∧ x ≠ ['.']) →
      ∀ x ∈ segs.foldl (cleanStep rooted) out, x ≠ [] ∧ x ≠ ['.']
  | [], out, hout => hout
  | seg :: segs, out, hout => by
    rw [List.foldl_cons]
    exact foldl_cleanStep_kept rooted segs _ (cleanStep_kept rooted out seg hout)

theorem stackOf_kept (root : List Char) : ∀ x ∈ stackOf root, x ≠ [] ∧ x ≠ ['.'] := by
  unfold stackOf
  split
  · simp
  · exact foldl_cleanStep_kept _ _ _ (by simp)

theorem joinSlash_kept :
    ∀ segs : List (List Char), segs ≠ [] →
      (∀ x ∈ segs, x ≠ [] ∧ x ≠ ['.'] ∧ '/' ∉ x) →
      joinSlash segs ≠ [] ∧ joinSlash segs ≠ ['.'] ∧ joinSlash segs ≠ ['/']
  | [], h, _ => absurd rfl h
  | [a], _, h => by
    obtain ⟨h1, h2, h3⟩ := h a (by simp)
    refine ⟨h1, h2, ?_⟩
    intro ha
    exact h3 (by simp [joinSlash] at ha; simp [ha])
  | a :: b :: l, _, h => by
    obtain ⟨h1, -, -⟩ := h a (by simp)
    obtain ⟨c, cs, rfl⟩ := List.exists_cons_of_ne_nil h1
    rw [joinSlash_cons_cons]
    simp

theorem Clean_of_ne_nil (root : List Char) (h : root ≠ []) :
    Clean root
      = if rootedOf root then '/' :: joinSlash (stackOf root).reverse
        else if joinSlash (stackOf root).reverse = [] then ['.']
        else joinSlash (stackOf root).reverse := by
  unfold Clean stackOf rootedOf
  simp [h]

theorem joinSlash_segment_relative (s f : List Char) :
    joinSlash (s :: splitSlash f) = s ++ '/' :: f := by
  rcases hsf : splitSlash f with _ | ⟨seg, segs⟩
  · exact absurd hsf (splitSlash_ne_nil f)
  · rw [joinSlash_cons_cons, ← hsf, joinSlash_splitSlash]

/-- For every root, `filepath.Join(root, s, f)` is what the root contributes
followed by `s`, the separator and `f`, when `s` is one clean path element and
`f` is made of clean path elements. -/
theorem Join_every_root (root s f : List Char) (hs : goodSegment s = true)
    (hf : ∀ seg ∈ splitSlash f, goodSegment seg = true) :
    Join [root, s, f] = rootPart root ++ (s ++ '/' :: f) := by
  rw [Join_root_segment_relative root s f hs hf]
  have hs1 : s ≠ [] := (goodSegment_iff.mp hs).1
  have htail := joinSlash_segment_relative s f
  by_cases hroot : root = []
  · subst hroot
    simp [rootPart, stackOf, rootedOf, htail, hs1]
  · have hclean := Clean_of_ne_nil root hroot
    by_cases hst : stackOf root = []
    · rw [hst] at hclean ⊢
      simp only [List.reverse_nil, List.nil_append, htail, joinSlash] at hclean ⊢
      cases hr : rootedOf root with
      | true =>
        rw [hr] at hclean
        simp only [if_true] at hclean
        simp [rootPart, hroot, hclean]
      | false =>
        rw [hr] at hclean
        simp only [Bool.false_eq_true, if_false, if_true] at hclean
        simp [rootPart, hroot, hclean, hs1]
    · have hrev : (stackOf root).reverse ≠ [] := by simpa using hst
      have hall : ∀ x ∈ (stackOf root).reverse, x ≠ [] ∧ x ≠ ['.'] ∧ '/' ∉ x := by
        intro x hx
        have hx1 := List.mem_reverse.mp hx
        exact ⟨(stackOf_kept root x hx1).1, (stackOf_kept root x hx1).2,
          stackOf_noSlash root x hx1⟩
      obtain ⟨hj1, hj2, hj3⟩ := joinSlash_kept _ hrev hall
      rw [joinSlash_append _ _ hrev (by simp), htail]
      cases hr : rootedOf root with
      | true =>
        rw [hr] at hclean
        simp only [if_true] at hclean
        simp [rootPart, hroot, hclean, hj1]
      | false =>
        rw [hr] at hclean
        simp only [Bool.false_eq_true, if_false, hj1] at hclean
        simp [rootPart, hroot, hclean, hj1, hj2, hj3]

theorem filepathJoin_every_root (root s r : String) (hs : isPathSegment s = true)
    (hr : isCleanRelative r = true) :
    filepathJoin [root, s, r]
      = (if root = "" ∨ filepathClean root = "." then ""
         else if filepathClean root = "/" then "/"
         else filepathClean root ++ "/") ++ s ++ "/" ++ r := by
  unfold filepathJoin
  simp only [List.map_cons, List.map_nil]
  rw [Join_every_root root.data s.data r.data hs (by simpa [isCleanRelative] using hr)]
  apply String.ext
  have h1 : (root = "") ↔ root.data = [] := by
    constructor
    · rintro rfl; rfl
    · intro h; exact String.ext h
  have h2 : (filepathClean root = ".") ↔ Clean root.data = ['.'] := by
    constructor
    · intro h; exact congrArg String.data h
    · intro h; exact String.ext h
  have h3 : (filepathClean root = "/") ↔ Clean root.data = ['/'] := by
    constructor
    · intro h; exact congrArg String.data h
    · intro h; exact String.ext h
  simp only [String.data_append, rootPart, h1, h2, h3]
  by_cases c1 : root.data = []
  · simp [c1]
  · by_cases c2 : Clean root.data = ['.']
    · simp [c1, c2]
    · by_cases c3 : Clean root.data = ['/']
      · simp [c1, c2, c3]
      · simp [c1, c2, c3, filepathClean]

/-! ## Case rules for the two loops -/

section Rules

variable {W : Type} (env : Env W) (flags : Flags)

/-- Case rule for `reposLoop`: a property of its result holds as soon as it
holds for the empty listing and is carried through each way in which an
iteration can finish. -/
theorem reposLoop_rule (sourceName : String)
    {motive : List (Repository W) → Nat → Nat → W → List Event × Flow W → Prop}
    (done : ∀ rc er w, motive [] rc er w ([], .next rc er w))
    (mkdirFailed : ∀ repo rest rc er w err,
      motive (repo :: rest) rc er w
        ([.log (.discovered repo.FullName),
          .mkdirAll sourceName repo.FullName
            (filepathJoin [flags.targetPath, sourceName, repo.FullName]) false,
          .log (.failedMkdir err)], .exit 100))
    (cloneFailedFast : flags.failAtEnd = false → ∀ repo rest rc er w err,
      motive (repo :: rest) rc er w
        ([.log (.discovered repo.FullName),
          .mkdirAll sourceName repo.FullName
            (filepathJoin [flags.targetPath, sourceName, repo.FullName]) true,
          .cloneInto sourceName repo.FullName
            (filepathJoin [flags.targetPath, sourceName, repo.FullName]) flags.bareClone false,
          .log (.failedClone err)], .exit 100))
    (cloneFailedOn : flags.failAtEnd = true → ∀ repo rest rc er w w2 err r,
      motive rest (rc + 1) (er + 1) w2 r →
      motive (repo :: rest) rc er w
        (emit [.log (.discovered repo.FullName),
          .mkdirAll sourceName repo.FullName
            (filepathJoin [flags.targetPath, sourceName, repo.FullName]) true,
          .cloneInto sourceName repo.FullName
            (filepathJoin [flags.targetPath, sourceName, repo.FullName]) flags.bareClone false,
          .log (.failedClone err)] r))
    (cloneOk : ∀ repo rest rc er w w2 r,
      motive rest (rc + 1) er w2 r →
      motive (repo :: rest) rc er w
        (emit [.log (.discovered repo.FullName),
          .mkdirAll sourceName repo.FullName
            (filepathJoin [flags.targetPath, sourceName, repo.FullName]) true,
          .cloneInto sourceName repo.FullName
            (filepathJoin [flags.targetPath, sourceName, repo.FullName]) flags.bareClone true] r)) :
    ∀ repos rc er w, motive repos rc er w (reposLoop env flags sourceName repos rc er w) := by
  intro repos
  induction repos with
  | nil => intro rc er w; simpa [reposLoop] using done rc er w
  | cons repo rest ih =>
    intro rc er w
    rw [reposLoop]
    split
    · exact mkdirFailed repo rest rc er w _
    · split
      · split
        · next hf => exact cloneFailedFast (by simpa using hf) repo rest rc er w _
        · next hf => exact cloneFailedOn (by simpa using hf) repo rest rc er w _ _ _ (ih _ _ _)
      · exact cloneOk repo rest rc er w _ _ (ih _ _ _)

/-- Case rule for `sourcesLoop`. -/
theorem sourcesLoop_rule
    {motive : List (RepositorySource W) → Nat → Nat → W → List Event × Flow W → Prop}
    (done : ∀ rc er w, motive [] rc er w ([], .next rc er w))
    (testFailed : ∀ source rest rc er w err,
      motive (source :: rest) rc er w
        ([.log (.sourceHeader source.GetName), .test source.GetName false,
          .log (.failedVerify source.GetName err)], .exit 110))
    (listFailed : ∀ source rest rc er w err,
      motive (source :: rest) rc er w
        ([.log (.sourceHeader source.GetName), .test source.GetName true,
          .listRepositories source.GetName none,
          .log (.communicationError err)], .exit 100))
    (reposExit : ∀ source rest rc er w w2 repos evs code,
      reposLoop env flags source.GetName repos rc er w2 = (evs, .exit code) →
      motive (source :: rest) rc er w
        (emit [.log (.sourceHeader source.GetName), .test source.GetName true,
          .listRepositories source.GetName (some (repos.map (fun r => r.FullName)))]
          (evs, .exit code)))
    (reposNext : ∀ source rest rc er w w2 repos evs rc1 er1 w3 r,
      reposLoop env flags source.GetName repos rc er w2 = (evs, .next rc1 er1 w3) →
      motive rest rc1 er1 w3 r →
      motive (source :: rest) rc er w
        (emit [.log (.sourceHeader source.GetName), .test source.GetName true,
          .listRepositories source.GetName (some (repos.map (fun r => r.FullName)))]
          (emit evs r))) :
    ∀ sources rc er w, motive sources rc er w (sourcesLoop env flags sources rc er w) := by
  intro sources
  induction sources with
  | nil => intro rc er w; simpa [sourcesLoop] using done rc er w
  | cons source rest ih =>
    intro rc er w
    rw [sourcesLoop]
    split
    · exact testFailed source rest rc er w _
    · split
      · exact listFailed source rest rc er w _
      · split
        · next h => exact reposExit source rest rc er w _ _ _ _ h
        · next h => exact reposNext source rest rc er w _ _ _ _ _ _ _ h (ih _ _ _)

end Rules

/-! ## Reading traces: append lemmas -/

theorem cloneAttempts_append (a b : List Event) :
    cloneAttempts (a ++ b) = cloneAttempts a ++ cloneAttempts b := by
  induction a with
  | nil => rfl
  | cons e a ih => cases e <;> simp [cloneAttempts, ih]

theorem listed_append (a b : List Event) : listed (a ++ b) = listed a ++ listed b := by
  induction a with
  | nil => rfl
  | cons e a ih =>
    cases e with
    | listRepositories s res => cases res <;> simp [listed, ih]
    | _ => simp [listed, ih]

theorem listedSources_append (a b : List Event) :
    listedSources (a ++ b) = listedSources a ++ listedSources b := by
  induction a with
  | nil => rfl
  | cons e a ih => cases e <;> simp [listedSources, ih]

theorem failedClones_append (a b : List Event) :
    failedClones (a ++ b) = failedClones a + failedClones b := by
  simp [failedClones]

theorem shape_of_emit {W : Type} {failAtEnd : Bool} {evs : List Event} {r : List Event × Flow W}
    (hq : ∀ x ∈ evs, x.quiet failAtEnd = true) (hr : Shape failAtEnd r) :
    Shape failAtEnd (emit evs r) := by
  obtain ⟨tr, fl⟩ := r
  cases fl with
  | exit code =>
    obtain ⟨pre, e, l, h1, h2, h3, h4⟩ := hr
    refine ⟨evs ++ pre, e, l, ?_, h2, h3, ?_⟩
    · simp only [GitBackup.emit] at h1 ⊢
      rw [h1, List.append_assoc]
    · intro x hx
      rcases List.mem_append.mp hx with hx | hx
      · exact hq x hx
      · exact h4 x hx
  | next rc er w =>
    intro x hx
    simp only [GitBackup.emit] at hx
    rcases List.mem_append.mp hx with hx | hx
    · exact hq x hx
    · exact hr x hx

theorem tally_of_emit {W : Type} {rc er n m : Nat} {evs : List Event} {r : List Event × Flow W}
    (hn : (cloneAttempts evs).length = n) (hm : failedClones evs = m)
    (hr : Tally (rc + n) (er + m) r) : Tally rc er (emit evs r) := by
  obtain ⟨tr, fl⟩ := r
  cases fl with
  | exit code => trivial
  | next rc1 er1 w =>
    obtain ⟨h1, h2⟩ := hr
    simp only at h1 h2
    refine ⟨?_, ?_⟩
    · simp only [GitBackup.emit, cloneAttempts_append, List.length_append, hn]; omega
    · simp only [GitBackup.emit, failedClones_append, hm]; omega

/-! ## Properties of the two loops -/

section Loops

variable {W : Type} (env : Env W) (flags : Flags)

theorem reposLoop_shape (sourceName : String) (repos : List (Repository W)) (rc er : Nat) (w : W) :
    Shape flags.failAtEnd (reposLoop env flags sourceName repos rc er w) := by
  refine reposLoop_rule env flags sourceName
    (motive := fun _ _ _ _ r => Shape flags.failAtEnd r) ?_ ?_ ?_ ?_ ?_ repos rc er w
  · intro rc er w x hx; simp at hx
  · intro repo rest rc er w err
    exact ⟨[_], _, _, rfl, rfl, rfl, by simp [Event.quiet, Event.fatalCode, Event.isSummary]⟩
  · intro hf repo rest rc er w err
    exact ⟨[_, _], _, _, rfl, by simp [Event.fatalCode, hf], rfl,
      by simp [Event.quiet, Event.fatalCode, Event.isSummary]⟩
  · intro hf repo rest rc er w w2 err r hr
    exact shape_of_emit (by simp [Event.quiet, Event.fatalCode, Event.isSummary, hf]) hr
  · intro repo rest rc er w w2 r hr
    exact shape_of_emit (by simp [Event.quiet, Event.fatalCode, Event.isSummary]) hr

theorem sourcesLoop_shape (sources : List (RepositorySource W)) (rc er : Nat) (w : W) :
    Shape flags.failAtEnd (sourcesLoop env flags sources rc er w) := by
  refine sourcesLoop_rule env flags
    (motive := fun _ _ _ _ r => Shape flags.failAtEnd r) ?_ ?_ ?_ ?_ ?_ sources rc er w
  · intro rc er w x hx; simp at hx
  · intro source rest rc er w err
    exact ⟨[_], _, _, rfl, rfl, by simp [Event.reportedBy],
      by simp [Event.quiet, Event.fatalCode, Event.isSummary]⟩
  · intro source rest rc er w err
    exact ⟨[_, _], _, _, rfl, rfl, rfl, by simp [Event.quiet, Event.fatalCode, Event.isSummary]⟩
  · intro source rest rc er w w2 repos evs code h
    have hs := reposLoop_shape env flags source.GetName repos rc er w2
    rw [h] at hs
    exact shape_of_emit (by simp [Event.quiet, Event.fatalCode, Event.isSummary]) hs
  · intro source rest rc er w w2 repos evs rc1 er1 w3 r h hr
    have hs := reposLoop_shape env flags source.GetName repos rc er w2
    rw [h] at hs
    exact shape_of_emit (by simp [Event.quiet, Event.fatalCode, Event.isSummary]) (shape_of_emit hs hr)

theorem reposLoop_tally (sourceName : String) (repos : List (Repository W)) (rc er : Nat) (w : W) :
    Tally rc er (reposLoop env flags sourceName repos rc er w) := by
  refine reposLoop_rule env flags sourceName
    (motive := fun _ rc er _ r => Tally rc er r) ?_ ?_ ?_ ?_ ?_ repos rc er w
  · intro rc er w; exact ⟨by simp [cloneAttempts], by simp [failedClones]⟩
  · intros; trivial
  · intros; trivial
  · intro hf repo rest rc er w w2 err r hr
    exact tally_of_emit (by simp [cloneAttempts]) (by simp [failedClones, Event.isCloneFailure]) hr
  · intro repo rest rc er w w2 r hr
    exact tally_of_emit (n := 1) (m := 0) (by simp [cloneAttempts])
      (by simp [failedClones, Event.isCloneFailure]) hr

theorem sourcesLoop_tally (sources : List (RepositorySource W)) (rc er : Nat) (w : W) :
    Tally rc er (sourcesLoop env flags sources rc er w) := by
  refine sourcesLoop_rule env flags
    (motive := fun _ rc er _ r => Tally rc er r) ?_ ?_ ?_ ?_ ?_ sources rc er w
  · intro rc er w; exact ⟨by simp [cloneAttempts], by simp [failedClones]⟩
  · intros; trivial
  · intros; trivial
  · intros; trivial
  · intro source rest rc er w w2 repos evs rc1 er1 w3 r h hr
    have hs := reposLoop_tally env flags source.GetName repos rc er w2
    rw [h] at hs
    obtain ⟨h1, h2⟩ := hs
    simp only at h1 h2
    refine tally_of_emit (n := 0) (m := 0) (by simp [cloneAttempts])
      (by simp [failedClones, Event.isCloneFailure]) ?_
    refine tally_of_emit rfl rfl ?_
    rw [h1, h2] at hr
    exact hr

theorem reposLoop_attempted (sourceName : String) (repos : List (Repository W)) (rc er : Nat)
    (w : W) : Attempted sourceName repos (reposLoop env flags sourceName repos rc er w) := by
  refine reposLoop_rule env flags sourceName
    (motive := fun repos _ _ _ r => Attempted sourceName repos r) ?_ ?_ ?_ ?_ ?_ repos rc er w
  · intro rc er w; exact ⟨rfl, rfl, rfl⟩
  · intros; exact ⟨rfl, rfl, trivial⟩
  · intros; exact ⟨rfl, rfl, trivial⟩
  · intro hf repo rest rc er w w2 err r hr
    obtain ⟨tr, fl⟩ := r
    obtain ⟨h1, h2, h3⟩ := hr
    refine ⟨by simpa [emit, listed] using h1, by simpa [emit, listedSources] using h2, ?_⟩
    cases fl with
    | exit code => trivial
    | next a b c => simpa [emit, cloneAttempts] using h3
  · intro repo rest rc er w w2 r hr
    obtain ⟨tr, fl⟩ := r
    obtain ⟨h1, h2, h3⟩ := hr
    refine ⟨by simpa [emit, listed] using h1, by simpa [emit, listedSources] using h2, ?_⟩
    cases fl with
    | exit code => trivial
    | next a b c => simpa [emit, cloneAttempts] using h3

theorem sourcesLoop_covered (sources : List (RepositorySource W)) (rc er : Nat) (w : W) :
    Covered sources (sourcesLoop env flags sources rc er w) := by
  refine sourcesLoop_rule env flags
    (motive := fun sources _ _ _ r => Covered sources r) ?_ ?_ ?_ ?_ ?_ sources rc er w
  · intro rc er w; exact ⟨rfl, rfl⟩
  · intros; trivial
  · intros; trivial
  · intros; trivial
  · intro source rest rc er w w2 repos evs rc1 er1 w3 r h hr
    have hs := reposLoop_attempted env flags source.GetName repos rc er w2
    rw [h] at hs
    obtain ⟨h1, h2, h3⟩ := hs
    simp only at h1 h2 h3
    obtain ⟨tr, fl⟩ := r
    cases fl with
    | exit code => trivial
    | next a b c =>
      obtain ⟨h4, h5⟩ := hr
      simp only at h4 h5
      refine ⟨?_, ?_⟩
      · simp [emit, listedSources, listedSources_append, h2, h4]
      · simp [emit, listed, cloneAttempts, listed_append, cloneAttempts_append, h1, h3, h5]

theorem reposLoop_pathOK (sourceName : String) (repos : List (Repository W)) (rc er : Nat)
    (w : W) : ∀ e ∈ (reposLoop env flags sourceName repos rc er w).1, e.pathOK flags := by
  refine reposLoop_rule env flags sourceName
    (motive := fun _ _ _ _ r => ∀ e ∈ r.1, e.pathOK flags) ?_ ?_ ?_ ?_ ?_ repos rc er w
  · intro rc er w e he; simp at he
  · intro repo rest rc er w err e he
    simp at he
    rcases he with rfl | rfl | rfl <;> simp [Event.pathOK]
  · intro hf repo rest rc er w err e he
    simp at he
    rcases he with rfl | rfl | rfl | rfl <;> simp [Event.pathOK]
  · intro hf repo rest rc er w w2 err r hr e he
    simp [emit] at he
    rcases he with rfl | rfl | rfl | rfl | he
    · simp [Event.pathOK]
    · simp [Event.pathOK]
    · simp [Event.pathOK]
    · simp [Event.pathOK]
    · exact hr e he
  · intro repo rest rc er w w2 r hr e he
    simp [emit] at he
    rcases he with rfl | rfl | rfl | he
    · simp [Event.pathOK]
    · simp [Event.pathOK]
    · simp [Event.pathOK]
    · exact hr e he

theorem sourcesLoop_pathOK (sources : List (RepositorySource W)) (rc er : Nat) (w : W) :
    ∀ e ∈ (sourcesLoop env flags sources rc er w).1, e.pathOK flags := by
  refine sourcesLoop_rule env flags
    (motive := fun _ _ _ _ r => ∀ e ∈ r.1, e.pathOK flags) ?_ ?_ ?_ ?_ ?_ sources rc er w
  · intro rc er w e he; simp at he
  · intro source rest rc er w err e he
    simp at he
    rcases he with rfl | rfl | rfl <;> simp [Event.pathOK]
  · intro source rest rc er w err e he
    simp at he
    rcases he with rfl | rfl | rfl | rfl <;> simp [Event.pathOK]
  · intro source rest rc er w w2 repos evs code h e he
    have hs := reposLoop_pathOK env flags source.GetName repos rc er w2
    rw [h] at hs
    simp [emit] at he
    rcases he with rfl | rfl | rfl | he
    · simp [Event.pathOK]
    · simp [Event.pathOK]
    · simp [Event.pathOK]
    · exact hs e he
  · intro source rest rc er w w2 repos evs rc1 er1 w3 r h hr e he
    have hs := reposLoop_pathOK env flags source.GetName repos rc er w2
    rw [h] at hs
    simp [emit] at he
    rcases he with rfl | rfl | rfl | he | he
    · simp [Event.pathOK]
    · simp [Event.pathOK]
    · simp [Event.pathOK]
    · exact hs e he
    · exact hr e he

end Loops

/-! ## The whole run -/

section Whole

variable {W : Type} (env : Env W) (flags : Flags)

theorem main_of_load (w : W) (cfg : Config W) (w1 : W) (hv : flags.printVersion = false)
    (hload : env.LoadFile flags.configFilePath w = (.ok cfg, w1)) (hne : cfg.GetSources ≠ []) :
    main env flags w
      = finish (startEvents flags) (sourcesLoop env flags cfg.GetSources 0 0 w1) := by
  have hlen : cfg.GetSources.length ≠ 0 := by
    intro h; exact hne (List.length_eq_zero.mp h)
  unfold main loadConfig
  simp only [hv, hload, Bool.false_eq_true, if_false, hlen]
  unfold startEvents finish
  split <;> rename_i h <;> simp [h]

theorem main_of_empty (w : W) (cfg : Config W) (w1 : W) (hv : flags.printVersion = false)
    (hload : env.LoadFile flags.configFilePath w = (.ok cfg, w1)) (hempty : cfg.GetSources = []) :
    main env flags w
      = ⟨startEvents flags ++ [.log (.noSources flags.configFilePath)], 111⟩ := by
  unfold main loadConfig
  simp [hv, hload, hempty, startEvents]

theorem startEvents_inert : ∀ e ∈ startEvents flags, e.inert = true := by
  intro e he
  unfold startEvents at he
  split at he <;> simp at he <;> rcases he with rfl | rfl | rfl <;> rfl

/-- What a run can be: one that never reaches the loop, made of inert events
and ending with code 0, 1 or 111; or the loop over a non-empty list of
sources followed by the end of `main`. -/
theorem main_cases (w : W) :
    ((∀ e ∈ (main env flags w).trace, e.inert = true) ∧
      ((main env flags w).exitCode = 0 ∨ (main env flags w).exitCode = 1 ∨
        ((main env flags w).exitCode = 111 ∧
          Event.log (.noSources flags.configFilePath) ∈ (main env flags w).trace))) ∨
    (∃ cfg w1, flags.printVersion = false ∧
      env.LoadFile flags.configFilePath w = (.ok cfg, w1) ∧ cfg.GetSources ≠ [] ∧
      main env flags w
        = finish (startEvents flags) (sourcesLoop env flags cfg.GetSources 0 0 w1)) := by
  cases hv : flags.printVersion with
  | true =>
    left
    have hm : main env flags w
        = ⟨[.log (.insecure flags.enableInsecure), .log .version, .log .built], 0⟩ := by
      unfold main; simp [hv]
    rw [hm]
    refine ⟨?_, Or.inl rfl⟩
    intro e he
    simp at he
    rcases he with rfl | rfl | rfl <;> rfl
  | false =>
    rcases hl : env.LoadFile flags.configFilePath w with ⟨res, w1⟩
    cases res with
    | error err =>
      left
      have hm : (main env flags w).exitCode = 1 ∧
          ∀ e ∈ (main env flags w).trace, e.inert = true := by
        unfold main loadConfig
        cases err <;> cases hi : flags.enableInsecure <;> simp [hv, hl, hi] <;>
          simp [Event.inert, Event.isBackupCall, Event.isSummary]
      exact ⟨hm.2, Or.inr (Or.inl hm.1)⟩
    | ok cfg =>
      by_cases hne : cfg.GetSources = []
      · left
        rw [main_of_empty env flags w cfg w1 hv hl hne]
        refine ⟨?_, Or.inr (Or.inr ⟨rfl, by simp⟩)⟩
        intro e he
        simp only [List.mem_append, List.mem_singleton] at he
        rcases he with he | rfl
        · exact startEvents_inert flags e he
        · rfl
      · right
        exact ⟨cfg, w1, rfl, rfl, hne, main_of_load env flags w cfg w1 hv hl hne⟩

theorem split_unique {P : Event → Prop} :
    ∀ {a a1 b b1 : List Event} {x x1 : Event}, a ++ x :: b = a1 ++ x1 :: b1 →
      (∀ y ∈ a, ¬ P y) → P x → (∀ y ∈ b, ¬ P y) → P x1 → a = a1 ∧ x = x1 ∧ b = b1
  | [], [], b, b1, x, x1, h, _, _, _, _ => by
    simp only [List.nil_append, List.cons.injEq] at h
    exact ⟨rfl, h.1, h.2⟩
  | [], z :: a2, b, b1, x, x1, h, _, _, hb, hx1 => by
    simp only [List.nil_append, List.cons_append, List.cons.injEq] at h
    exact absurd hx1 (hb x1 (by rw [h.2]; simp))
  | y :: a0, [], b, b1, x, x1, h, ha, _, _, hx1 => by
    simp only [List.nil_append, List.cons_append, List.cons.injEq] at h
    exact absurd (h.1 ▸ hx1) (ha y (by simp))
  | y :: a0, z :: a2, b, b1, x, x1, h, ha, hx, hb, hx1 => by
    simp only [List.cons_append, List.cons.injEq] at h
    obtain ⟨h1, h2, h3⟩ := split_unique (P := P) h.2
      (fun u hu => ha u (List.mem_cons_of_mem _ hu)) hx hb hx1
    exact ⟨by rw [h.1, h1], h2, h3⟩

theorem fatalCode_of_inert {e : Event} (fae : Bool) (h : e.inert = true) :
    e.fatalCode fae = none := by
  cases e <;> simp_all [Event.inert, Event.isBackupCall, Event.fatalCode]

theorem quiet_of_inert {e : Event} (fae : Bool) (h : e.inert = true) : e.quiet fae = true := by
  cases e <;> simp_all [Event.inert, Event.isBackupCall, Event.fatalCode, Event.quiet]

theorem fatalCode_of_quiet {e : Event} {fae : Bool} (h : e.quiet fae = true) :
    e.fatalCode fae = none := by
  simp only [Event.quiet, Bool.and_eq_true, Option.isNone_iff_eq_none] at h
  exact h.1

theorem isSummary_of_quiet {e : Event} {fae : Bool} (h : e.quiet fae = true) :
    e.isSummary = false := by
  simp only [Event.quiet, Bool.and_eq_true, Bool.not_eq_true'] at h
  exact h.2

theorem isSummary_of_fatal {e : Event} {fae : Bool} {c : Nat} (h : e.fatalCode fae = some c) :
    e.isSummary = false := by
  cases e <;> simp_all [Event.fatalCode, Event.isSummary]

theorem isSummary_of_reportedBy {e : Event} {l : LogMsg} (h : e.reportedBy l = true) :
    (Event.log l).isSummary = false := by
  cases l <;> first | rfl | (cases e <;> simp [Event.reportedBy] at h)

theorem startEvents_reading :
    cloneAttempts (startEvents flags) = [] ∧ failedClones (startEvents flags) = 0 ∧
    listed (startEvents flags) = [] ∧ listedSources (startEvents flags) = [] := by
  unfold startEvents
  cases flags.enableInsecure <;> simp [cloneAttempts, failedClones, listed, listedSources,
    Event.isCloneFailure]

theorem pathOK_of_inert {e : Event} (h : e.inert = true) : e.pathOK flags := by
  cases e <;> simp_all [Event.inert, Event.isBackupCall, Event.pathOK]

/-- A fatal event of a run is followed by the log line reporting it and by
nothing else, is preceded by quiet events only, and decides the exit code. -/
theorem main_fatal (w : W) (pre post : List Event) (e : Event) (c : Nat)
    (h : (main env flags w).trace = pre ++ e :: post)
    (hc : e.fatalCode flags.failAtEnd = some c) :
    (main env flags w).exitCode = c ∧ (∃ l, post = [Event.log l] ∧ e.reportedBy l = true) ∧
      ∀ x ∈ pre, x.quiet flags.failAtEnd = true := by
  have hmem : e ∈ (main env flags w).trace := by rw [h]; simp
  rcases main_cases env flags w with ⟨hin, _⟩ | ⟨cfg, w1, hv, hl, hne, hm⟩
  · rw [fatalCode_of_inert _ (hin e hmem)] at hc
    cases hc
  · have hs := sourcesLoop_shape env flags cfg.GetSources 0 0 w1
    rw [hm] at h hmem ⊢
    generalize sourcesLoop env flags cfg.GetSources 0 0 w1 = r at hs h hmem
    obtain ⟨evs, fl⟩ := r
    cases fl with
    | exit code =>
      obtain ⟨p0, e0, l0, h1, h2, h3, h4⟩ := hs
      simp only at h1
      simp only [finish, h1] at h ⊢
      rw [← List.append_assoc] at h
      have hu := split_unique (P := fun y => y.fatalCode flags.failAtEnd ≠ none)
        (a := startEvents flags ++ p0) (x := e0) (b := [Event.log l0]) h
        (by
          intro y hy
          rcases List.mem_append.mp hy with hy | hy
          · simp [fatalCode_of_inert _ (startEvents_inert flags y hy)]
          · simp [fatalCode_of_quiet (h4 y hy)])
        (by simp [h2])
        (by intro y hy; simp at hy; subst hy; simp [Event.fatalCode])
        (by simp [hc])
      obtain ⟨rfl, rfl, rfl⟩ := hu
      refine ⟨?_, ⟨l0, rfl, h3⟩, ?_⟩
      · rw [h2] at hc; exact Option.some.inj hc
      · intro x hx
        rcases List.mem_append.mp hx with hx | hx
        · exact quiet_of_inert _ (startEvents_inert flags x hx)
        · exact h4 x hx
    | next rc er w2 =>
      exfalso
      simp only [finish, List.mem_append, List.mem_singleton] at hmem
      rcases hmem with (hx | hx) | rfl
      · rw [fatalCode_of_inert _ (startEvents_inert flags e hx)] at hc; cases hc
      · rw [fatalCode_of_quiet (hs e hx)] at hc; cases hc
      · simp [Event.fatalCode] at hc

/-- The summary line of a run is its last event; it carries the number of
clone attempts and of failed clone attempts of the run, which decide the exit
code, and the clone attempts of such a run are the listed repositories. -/
theorem main_summary (w : W) (rc er : Nat)
    (h : Event.log (.summary rc er) ∈ (main env flags w).trace) :
    (∃ pre, (main env flags w).trace = pre ++ [Event.log (.summary rc er)] ∧
      ∀ x ∈ pre, x.quiet flags.failAtEnd = true) ∧
    rc = (cloneAttempts (main env flags w).trace).length ∧
    er = failedClones (main env flags w).trace ∧
    (main env flags w).exitCode = (if er > 0 then 100 else 0) ∧
    cloneAttempts (main env flags w).trace = listed (main env flags w).trace := by
  rcases main_cases env flags w with ⟨hin, _⟩ | ⟨cfg, w1, hv, hl, hne, hm⟩
  · have := hin _ h
    simp [Event.inert, Event.isSummary] at this
  · have hs := sourcesLoop_shape env flags cfg.GetSources 0 0 w1
    have ht := sourcesLoop_tally env flags cfg.GetSources 0 0 w1
    have hcov := sourcesLoop_covered env flags cfg.GetSources 0 0 w1
    rw [hm] at h ⊢
    generalize sourcesLoop env flags cfg.GetSources 0 0 w1 = r at hs ht hcov h
    obtain ⟨evs, fl⟩ := r
    obtain ⟨hs1, hs2, hs3, hs4⟩ := startEvents_reading flags
    cases fl with
    | exit code =>
      exfalso
      obtain ⟨p0, e0, l0, h1, h2, h3, h4⟩ := hs
      simp only at h1
      simp only [finish, h1, List.mem_append, List.mem_cons, List.mem_singleton,
        List.not_mem_nil, or_false] at h
      rcases h with hx | hx | hx | hx
      · have := startEvents_inert flags _ hx
        simp [Event.inert, Event.isSummary] at this
      · have := isSummary_of_quiet (h4 _ hx)
        simp [Event.isSummary] at this
      · have := isSummary_of_fatal h2
        rw [← hx] at this
        simp [Event.isSummary] at this
      · have := isSummary_of_reportedBy h3
        rw [← hx] at this
        simp [Event.isSummary] at this
    | next rc1 er1 w2 =>
      obtain ⟨ht1, ht2⟩ := ht
      obtain ⟨-, hc2⟩ := hcov
      simp only at ht1 ht2 hc2 hs
      have hlast : rc = rc1 ∧ er = er1 := by
        simp only [finish, List.mem_append, List.mem_singleton] at h
        rcases h with (hx | hx) | hx
        · have := startEvents_inert flags _ hx
          simp [Event.inert, Event.isSummary] at this
        · have := isSummary_of_quiet (hs _ hx)
          simp [Event.isSummary] at this
        · simpa using hx
      obtain ⟨rfl, rfl⟩ := hlast
      have hfin : finish (startEvents flags) (evs, Flow.next rc er w2)
          = ⟨startEvents flags ++ evs ++ [Event.log (.summary rc er)],
              if er > 0 then 100 else 0⟩ := rfl
      rw [hfin]
      refine ⟨⟨startEvents flags ++ evs, rfl, ?_⟩, ?_, ?_, rfl, ?_⟩
      · intro x hx
        rcases List.mem_append.mp hx with hx | hx
        · exact quiet_of_inert _ (startEvents_inert flags x hx)
        · exact hs x hx
      · simp [cloneAttempts_append, hs1, cloneAttempts, ht1]
      · rw [failedClones_append, failedClones_append, hs2, ht2]
        simp [failedClones, Event.isCloneFailure]
      · simp [cloneAttempts_append, listed_append, hs1, hs3, cloneAttempts, listed, hc2]

/-- A run that reaches the loop and meets no fatal event ends with the
summary line, and has listed every source, in order. -/
theorem main_complete (w : W) (cfg : Config W) (w1 : W) (hv : flags.printVersion = false)
    (hload : env.LoadFile flags.configFilePath w = (.ok cfg, w1)) (hne : cfg.GetSources ≠ [])
    (hq : ∀ e ∈ (main env flags w).trace, e.fatalCode flags.failAtEnd = none) :
    (∃ rc er, Event.log (.summary rc er) ∈ (main env flags w).trace) ∧
    listedSources (main env flags w).trace = cfg.GetSources.map (fun s => s.GetName) := by
  have hm := main_of_load env flags w cfg w1 hv hload hne
  have hs := sourcesLoop_shape env flags cfg.GetSources 0 0 w1
  have hcov := sourcesLoop_covered env flags cfg.GetSources 0 0 w1
  rw [hm] at hq ⊢
  generalize sourcesLoop env flags cfg.GetSources 0 0 w1 = r at hs hcov hq
  obtain ⟨evs, fl⟩ := r
  obtain ⟨hs1, hs2, hs3, hs4⟩ := startEvents_reading flags
  cases fl with
  | exit code =>
    exfalso
    obtain ⟨p0, e0, l0, h1, h2, h3, h4⟩ := hs
    simp only at h1
    have := hq e0 (by simp [finish, h1])
    rw [h2] at this
    cases this
  | next rc1 er1 w2 =>
    obtain ⟨hc1, -⟩ := hcov
    simp only at hc1
    refine ⟨⟨rc1, er1, by simp [finish]⟩, ?_⟩
    simp [finish, listedSources_append, hs4, hc1, listedSources]

theorem main_pathOK (w : W) : ∀ e ∈ (main env flags w).trace, e.pathOK flags := by
  rcases main_cases env flags w with ⟨hin, _⟩ | ⟨cfg, w1, hv, hl, hne, hm⟩
  · intro e he; exact pathOK_of_inert flags (hin e he)
  · have hp := sourcesLoop_pathOK env flags cfg.GetSources 0 0 w1
    rw [hm]
    generalize sourcesLoop env flags cfg.GetSources 0 0 w1 = r at hp
    obtain ⟨evs, fl⟩ := r
    cases fl with
    | exit code =>
      intro e he
      simp only [finish, List.mem_append] at he
      rcases he with he | he
      · exact pathOK_of_inert flags (startEvents_inert flags e he)
      · exact hp e he
    | next rc er w2 =>
      intro e he
      simp only [finish, List.mem_append, List.mem_singleton] at he
      rcases he with (he | he) | rfl
      · exact pathOK_of_inert flags (startEvents_inert flags e he)
      · exact hp e he
      · trivial

theorem sourcesLoop_append (before rest : List (RepositorySource W)) :
    ∀ (rc er : Nat) (w : W) (evs : List Event) (rc1 er1 : Nat) (w1 : W),
      sourcesLoop env flags before rc er w = (evs, .next rc1 er1 w1) →
      sourcesLoop env flags (before ++ rest) rc er w
        = emit evs (sourcesLoop env flags rest rc1 er1 w1) := by
  induction before with
  | nil =>
    intro rc er w evs rc1 er1 w1 h
    simp only [sourcesLoop, Prod.mk.injEq, Flow.next.injEq] at h
    obtain ⟨rfl, rfl, rfl, rfl⟩ := h
    simp [emit]
  | cons source before ih =>
    intro rc er w evs rc1 er1 w1 h
    rw [List.cons_append, sourcesLoop]
    rw [sourcesLoop] at h
    rcases hT : source.Test w with ⟨_ | err, w2⟩
    · rw [hT] at h
      simp only at h ⊢
      rcases hL : source.ListRepositories w2 with ⟨_ | repos, w3⟩
      · rw [hL] at h
        simp at h
      · rw [hL] at h
        simp only at h ⊢
        rcases hR : reposLoop env flags source.GetName repos rc er w3 with ⟨evs1, _ | ⟨rc2, er2, w4⟩⟩
        · rw [hR] at h
          simp [emit] at h
        · rw [hR] at h
          simp only at h ⊢
          rcases hS : sourcesLoop env flags before rc2 er2 w4 with ⟨evs2, _ | ⟨rc3, er3, w5⟩⟩
          · rw [hS] at h
            simp [emit] at h
          · rw [hS] at h
            simp only [emit, Prod.mk.injEq, Flow.next.injEq] at h
            obtain ⟨rfl, rfl, rfl, rfl⟩ := h
            rw [ih rc2 er2 w4 evs2 rc3 er3 w5 hS]
            simp [emit]
    · rw [hT] at h
      simp at h

theorem sourcesLoop_test_fails (source : RepositorySource W) (rest : List (RepositorySource W))
    (rc er : Nat) (w w1 : W) (err : GoError) (h : source.Test w = (some err, w1)) :
    sourcesLoop env flags (source :: rest) rc er w
      = ([.log (.sourceHeader source.GetName), .test source.GetName false,
          .log (.failedVerify source.GetName err)], .exit 110) := by
  rw [sourcesLoop, h]

theorem fatalCode_cloneFailure {e : Event} (h : e.isCloneFailure = true) :
    e.fatalCode false = some 100 := by
  unfold Event.isCloneFailure at h
  split at h
  · rfl
  · cases h

theorem fatal_of_setupFailure {e : Event} (fae : Bool) (h : e.isSetupFailure = true) :
    ∃ c, e.fatalCode fae = some c := by
  unfold Event.isSetupFailure at h
  split at h
  · exact ⟨110, rfl⟩
  · exact ⟨100, rfl⟩
  · exact ⟨100, rfl⟩
  · cases h

theorem fatalCode_pos {e : Event} {fae : Bool} {c : Nat} (h : e.fatalCode fae = some c) :
    c = 100 ∨ c = 110 := by
  unfold Event.fatalCode at h
  split at h <;> simp_all

theorem failedClones_pos {evs : List Event} {e : Event} (he : e ∈ evs)
    (h : e.isCloneFailure = true) : 0 < failedClones evs := by
  unfold failedClones
  exact List.length_pos_of_mem (List.mem_filter.mpr ⟨he, h⟩)

theorem failedClones_zero {evs : List Event} (h : failedClones evs = 0) :
    ∀ e ∈ evs, e.isCloneFailure = false := by
  intro e he
  by_contra hc
  have := failedClones_pos he (by simpa using hc)
  omega

/-- A run that ends in the clone-failure outcome, by the exit at the first
failed clone under fail-fast or by the summary counting errors, exits with
code 100. -/
theorem main_cloneFailure_code (w : W)
    (h : (flags.failAtEnd = false ∧ ∃ e ∈ (main env flags w).trace, e.isCloneFailure = true) ∨
      (∃ rc er, 0 < er ∧ Event.log (.summary rc er) ∈ (main env flags w).trace)) :
    (main env flags w).exitCode = 100 := by
  rcases h with ⟨hf, e, he, hc⟩ | ⟨rc, er, hpos, hs⟩
  · obtain ⟨pre, post, hsplit⟩ := List.append_of_mem he
    have := fatalCode_cloneFailure hc
    rw [← hf] at this
    exact (main_fatal env flags w pre post e 100 hsplit this).1
  · obtain ⟨-, -, -, hx, -⟩ := main_summary env flags w rc er hs
    rw [hx, if_pos hpos]

/-- A run that exits with code 0 met no failure at all. -/
theorem main_exit_zero (w : W) (h : (main env flags w).exitCode = 0) :
    ∀ e ∈ (main env flags w).trace, e.isSetupFailure = false ∧ e.isCloneFailure = false := by
  rcases main_cases env flags w with ⟨hin, _⟩ | ⟨cfg, w1, hv, hl, hne, hm⟩
  · intro e he
    have := hin e he
    cases e <;> simp_all [Event.inert, Event.isBackupCall, Event.isSetupFailure,
      Event.isCloneFailure]
  · have hs := sourcesLoop_shape env flags cfg.GetSources 0 0 w1
    have ht := sourcesLoop_tally env flags cfg.GetSources 0 0 w1
    rw [hm] at h ⊢
    generalize sourcesLoop env flags cfg.GetSources 0 0 w1 = r at hs ht h
    obtain ⟨evs, fl⟩ := r
    cases fl with
    | exit code =>
      exfalso
      obtain ⟨p0, e0, l0, h1, h2, h3, h4⟩ := hs
      simp only [finish] at h
      subst h
      rcases fatalCode_pos h2 with h5 | h5 <;> cases h5
    | next rc er w2 =>
      obtain ⟨-, ht2⟩ := ht
      simp only at ht2 hs
      simp only [finish] at h
      have her : er = 0 := by
        by_contra hc
        rw [if_pos (Nat.pos_of_ne_zero hc)] at h
        cases h
      have hz := failedClones_zero (by omega : failedClones evs = 0)
      intro e he
      simp only [finish, List.mem_append, List.mem_singleton] at he
      rcases he with (he | he) | rfl
      · have := startEvents_inert flags e he
        cases e <;> simp_all [Event.inert, Event.isBackupCall, Event.isSetupFailure,
          Event.isCloneFailure]
      · refine ⟨?_, hz e he⟩
        have hq := fatalCode_of_quiet (hs e he)
        by_contra hc
        obtain ⟨c, hc1⟩ := fatal_of_setupFailure flags.failAtEnd (by simpa using hc)
        rw [hq] at hc1
        cases hc1
      · exact ⟨rfl, rfl⟩

/-- The exit codes of the program; code 111 is used by the no-sources
outcome only. -/
theorem main_exitCode (w : W) :
    ((main env flags w).exitCode = 0 ∨ (main env flags w).exitCode = 1 ∨
      (main env flags w).exitCode = 100 ∨ (main env flags w).exitCode = 110 ∨
      (main env flags w).exitCode = 111) ∧
    ((main env flags w).exitCode = 111 →
      Event.log (.noSources flags.configFilePath) ∈ (main env flags w).trace) := by
  rcases main_cases env flags w with ⟨-, h | h | h⟩ | ⟨cfg, w1, hv, hl, hne, hm⟩
  · exact ⟨Or.inl h, fun h1 => by rw [h] at h1; cases h1⟩
  · exact ⟨Or.inr (Or.inl h), fun h1 => by rw [h] at h1; cases h1⟩
  · exact ⟨Or.inr (Or.inr (Or.inr (Or.inr h.1))), fun _ => h.2⟩
  · have hs := sourcesLoop_shape env flags cfg.GetSources 0 0 w1
    rw [hm]
    generalize sourcesLoop env flags cfg.GetSources 0 0 w1 = r at hs
    obtain ⟨evs, fl⟩ := r
    cases fl with
    | exit code =>
      obtain ⟨p0, e0, l0, h1, h2, h3, h4⟩ := hs
      rcases fatalCode_pos h2 with h5 | h5 <;> subst h5 <;> simp [finish]
    | next rc er w2 =>
      by_cases her : er > 0 <;> simp [finish, her]

theorem mkdirPaths_append (a b : List Event) :
    mkdirPaths (a ++ b) = mkdirPaths a ++ mkdirPaths b := by
  simp [mkdirPaths]

theorem clonePaths_append (a b : List Event) :
    clonePaths (a ++ b) = clonePaths a ++ clonePaths b := by
  simp [clonePaths]

theorem pathsPassed_of_emit {flags : Flags} {a b : List (String × String)}
    {evs : List Event} {r : List Event × Flow W}
    (hm : mkdirPaths evs = a.map (targetPathOf flags))
    (hc : clonePaths evs = a.map (fun sr => (targetPathOf flags sr, flags.bareClone)))
    (hr : PathsPassed flags b r) : PathsPassed flags (a ++ b) (emit evs r) := by
  obtain ⟨tr, fl⟩ := r
  cases fl with
  | exit code =>
    obtain ⟨⟨r1, h1⟩, ⟨r2, h2⟩⟩ := hr
    simp only at h1 h2
    refine ⟨⟨r1, ?_⟩, ⟨r2, ?_⟩⟩
    · simp only [emit, mkdirPaths_append, List.map_append, hm, h1, List.append_assoc]
    · simp only [emit, clonePaths_append, List.map_append, hc, h2, List.append_assoc]
  | next rc er w =>
    obtain ⟨h1, h2⟩ := hr
    simp only at h1 h2
    refine ⟨?_, ?_⟩
    · simp only [emit, mkdirPaths_append, List.map_append, hm, h1]
    · simp only [emit, clonePaths_append, List.map_append, hc, h2]

theorem reposLoop_passed (sourceName : String) (repos : List (Repository W)) (rc er : Nat)
    (w : W) :
    PathsPassed flags (repos.map (fun x => (sourceName, x.FullName)))
      (reposLoop env flags sourceName repos rc er w) := by
  refine reposLoop_rule env flags sourceName
    (motive := fun repos _ _ _ r =>
      PathsPassed flags (repos.map (fun x => (sourceName, x.FullName))) r)
    ?_ ?_ ?_ ?_ ?_ repos rc er w
  · intro rc er w; exact ⟨rfl, rfl⟩
  · intro repo rest rc er w err
    exact ⟨⟨_, by simp [mkdirPaths, targetPathOf]; rfl⟩,
      ⟨_, by simp [clonePaths]; rfl⟩⟩
  · intro hf repo rest rc er w err
    exact ⟨⟨_, by simp [mkdirPaths, targetPathOf]; rfl⟩,
      ⟨_, by simp [clonePaths, targetPathOf]; rfl⟩⟩
  · intro hf repo rest rc er w w2 err r hr
    rw [List.map_cons, ← List.singleton_append]
    refine pathsPassed_of_emit ?_ ?_ hr
    · simp [mkdirPaths, targetPathOf]
    · simp [clonePaths, targetPathOf]
  · intro repo rest rc er w w2 r hr
    rw [List.map_cons, ← List.singleton_append]
    refine pathsPassed_of_emit ?_ ?_ hr
    · simp [mkdirPaths, targetPathOf]
    · simp [clonePaths, targetPathOf]

theorem sourcesLoop_passed (sources : List (RepositorySource W)) (rc er : Nat) (w : W) :
    PathsPassed flags (listed (sourcesLoop env flags sources rc er w).1)
      (sourcesLoop env flags sources rc er w) := by
  refine sourcesLoop_rule env flags
    (motive := fun _ _ _ _ r => PathsPassed flags (listed r.1) r) ?_ ?_ ?_ ?_ ?_ sources rc er w
  · intro rc er w; exact ⟨rfl, rfl⟩
  · intro source rest rc er w err
    exact ⟨⟨[], by simp [mkdirPaths, listed]⟩, ⟨[], by simp [clonePaths, listed]⟩⟩
  · intro source rest rc er w err
    exact ⟨⟨[], by simp [mkdirPaths, listed]⟩, ⟨[], by simp [clonePaths, listed]⟩⟩
  · intro source rest rc er w w2 repos evs code h
    have hp := reposLoop_passed env flags source.GetName repos rc er w2
    have ha := reposLoop_attempted env flags source.GetName repos rc er w2
    rw [h] at hp ha
    obtain ⟨hl, -, -⟩ := ha
    simp only at hl
    have hw : listed (emit [.log (.sourceHeader source.GetName), .test source.GetName true,
        .listRepositories source.GetName (some (repos.map (fun r => r.FullName)))]
        ((evs, Flow.exit code) : List Event × Flow W)).1
        = [] ++ repos.map (fun x => (source.GetName, x.FullName)) := by
      simp [emit, listed, listed_append, hl]
    rw [hw]
    refine pathsPassed_of_emit ?_ ?_ hp
    · simp [mkdirPaths]
    · simp [clonePaths]
  · intro source rest rc er w w2 repos evs rc1 er1 w3 r h hr
    have hp := reposLoop_passed env flags source.GetName repos rc er w2
    have ha := reposLoop_attempted env flags source.GetName repos rc er w2
    rw [h] at hp ha
    obtain ⟨hl, -, -⟩ := ha
    obtain ⟨hp1, hp2⟩ := hp
    simp only at hl hp1 hp2
    have he : emit [.log (.sourceHeader source.GetName), .test source.GetName true,
        .listRepositories source.GetName (some (repos.map (fun r => r.FullName)))]
        (emit evs r)
        = emit ([.log (.sourceHeader source.GetName), .test source.GetName true,
          .listRepositories source.GetName (some (repos.map (fun r => r.FullName)))] ++ evs)
          r := by
      simp [emit]
    have hw : listed (emit ([.log (.sourceHeader source.GetName), .test source.GetName true,
        .listRepositories source.GetName (some (repos.map (fun r => r.FullName)))] ++ evs)
        r).1 = repos.map (fun x => (source.GetName, x.FullName)) ++ listed r.1 := by
      simp [emit, listed, listed_append, hl]
    rw [he, hw]
    refine pathsPassed_of_emit ?_ ?_ hr
    · rw [mkdirPaths_append, hp1]
      simp [mkdirPaths]
    · rw [clonePaths_append, hp2]
      simp [clonePaths]

theorem reading_of_inert {evs : List Event} (h : ∀ e ∈ evs, e.inert = true) :
    mkdirPaths evs = [] ∧ clonePaths evs = [] ∧ listed evs = [] := by
  induction evs with
  | nil => exact ⟨rfl, rfl, rfl⟩
  | cons e evs ih =>
    obtain ⟨h1, h2, h3⟩ := ih (fun x hx => h x (List.mem_cons_of_mem _ hx))
    have he := h e (by simp)
    cases e <;> simp_all [Event.inert, Event.isBackupCall, mkdirPaths, clonePaths, listed]

/-- In every run the paths passed to `MkdirAll` and to `CloneInto` are, call
by call and in order, the target paths of the listed repositories, and of all
of them when the run meets no fatal event. -/
theorem main_passed (w : W) :
    ((∃ rest, (listed (main env flags w).trace).map (targetPathOf flags)
        = mkdirPaths (main env flags w).trace ++ rest) ∧
      ∃ rest, (listed (main env flags w).trace).map
          (fun sr => (targetPathOf flags sr, flags.bareClone))
        = clonePaths (main env flags w).trace ++ rest) ∧
    ((∀ e ∈ (main env flags w).trace, e.fatalCode flags.failAtEnd = none) →
      mkdirPaths (main env flags w).trace
        = (listed (main env flags w).trace).map (targetPathOf flags) ∧
      clonePaths (main env flags w).trace
        = (listed (main env flags w).trace).map
            (fun sr => (targetPathOf flags sr, flags.bareClone))) := by
  rcases main_cases env flags w with ⟨hin, _⟩ | ⟨cfg, w1, hv, hl, hne, hm⟩
  · obtain ⟨h1, h2, h3⟩ := reading_of_inert hin
    rw [h1, h2, h3]
    exact ⟨⟨⟨[], rfl⟩, ⟨[], rfl⟩⟩, fun _ => ⟨rfl, rfl⟩⟩
  · have hs := sourcesLoop_shape env flags cfg.GetSources 0 0 w1
    have hp := sourcesLoop_passed env flags cfg.GetSources 0 0 w1
    rw [hm]
    generalize sourcesLoop env flags cfg.GetSources 0 0 w1 = r at hs hp
    obtain ⟨evs, fl⟩ := r
    obtain ⟨h1, h2, h3⟩ := reading_of_inert (startEvents_inert flags)
    cases fl with
    | exit code =>
      obtain ⟨⟨r1, hp1⟩, ⟨r2, hp2⟩⟩ := hp
      simp only at hp1 hp2
      have ht : (finish (startEvents flags) ((evs, Flow.exit code) : List Event × Flow W)).trace
          = startEvents flags ++ evs := rfl
      rw [ht, mkdirPaths_append, clonePaths_append, listed_append, h1, h2, h3]
      refine ⟨⟨⟨r1, by simpa using hp1⟩, ⟨r2, by simpa using hp2⟩⟩, ?_⟩
      intro hq
      exfalso
      obtain ⟨p0, e0, l0, h4, h5, h6, h7⟩ := hs
      simp only at h4
      have := hq e0 (by simp [h4])
      rw [h5] at this
      cases this
    | next rc er w2 =>
      obtain ⟨hp1, hp2⟩ := hp
      simp only at hp1 hp2
      have ht : (finish (startEvents flags)
          ((evs, Flow.next rc er w2) : List Event × Flow W)).trace
          = startEvents flags ++ evs ++ [Event.log (.summary rc er)] := rfl
      have hm1 : mkdirPaths (startEvents flags ++ evs ++ [Event.log (.summary rc er)])
          = (listed (startEvents flags ++ evs ++ [Event.log (.summary rc er)])).map
              (targetPathOf flags) := by
        rw [mkdirPaths_append, mkdirPaths_append, listed_append, listed_append, h1, h3, hp1]
        simp [mkdirPaths, listed]
      have hc1 : clonePaths (startEvents flags ++ evs ++ [Event.log (.summary rc er)])
          = (listed (startEvents flags ++ evs ++ [Event.log (.summary rc er)])).map
              (fun sr => (targetPathOf flags sr, flags.bareClone)) := by
        rw [clonePaths_append, clonePaths_append, listed_append, listed_append, h2, h3, hp2]
        simp [clonePaths, listed]
      rw [ht]
      exact ⟨⟨⟨[], by rw [hm1]; simp⟩, ⟨[], by rw [hc1]; simp⟩⟩, fun _ => ⟨hm1, hc1⟩⟩

theorem reposLoop_recording (flags : Flags) (sources : List (String × List String))
    (s : String) :
    ∀ (names : List String) (rc er : Nat) (w : List Call),
      (reposLoop (recordingEnv sources) flags s (names.map recordingRepo) rc er w).2
        = Flow.next (rc + names.length) er (w ++ repoCalls flags s names) := by
  intro names
  induction names with
  | nil => intro rc er w; simp [reposLoop, repoCalls]
  | cons r names ih =>
    intro rc er w
    have h := ih (rc + 1) er
      (w ++ [Call.mkdirAll (filepathJoin [flags.targetPath, s, r])]
        ++ [Call.cloneInto r (filepathJoin [flags.targetPath, s, r]) flags.bareClone])
    simp only [List.map_cons, reposLoop, recordingEnv, recordingRepo, emit] at h ⊢
    rw [h]
    simp [repoCalls, List.flatMap_cons]
    omega

theorem sourcesLoop_recording (flags : Flags) (all : List (String × List String)) :
    ∀ (sources : List (String × List String)) (rc er : Nat) (w : List Call),
      (sourcesLoop (recordingEnv all) flags (sources.map recordingSource) rc er w).2
        = Flow.next (rc + (sources.map (fun sp => sp.2.length)).sum) er
            (w ++ sourceCalls flags sources) := by
  intro sources
  induction sources with
  | nil => intro rc er w; simp [sourcesLoop, sourceCalls]
  | cons sp sources ih =>
    intro rc er w
    have hr := reposLoop_recording flags all sp.1 sp.2 rc er
      (w ++ [Call.test sp.1] ++ [Call.listRepositories sp.1])
    rcases hR : reposLoop (recordingEnv all) flags sp.1 (sp.2.map recordingRepo) rc er
      (w ++ [Call.test sp.1] ++ [Call.listRepositories sp.1]) with ⟨evs, fl⟩
    rw [hR] at hr
    simp only at hr
    subst hr
    simp only [List.map_cons, sourcesLoop, recordingSource, hR, emit]
    rw [ih]
    simp [sourceCalls, List.flatMap_cons, Nat.add_assoc]

/-- When the listed repositories of a run are pairwise distinct and their
names are made of clean path elements, no path is passed twice to `MkdirAll`
and none twice to `CloneInto`. -/
theorem main_paths_nodup (w : W) (hnd : (listed (main env flags w).trace).Nodup)
    (hgood : ∀ sr ∈ listed (main env flags w).trace,
      isPathSegment sr.1 = true ∧ isCleanRelative sr.2 = true) :
    (mkdirPaths (main env flags w).trace).Nodup ∧
    ((clonePaths (main env flags w).trace).map Prod.fst).Nodup := by
  have hmap : ((listed (main env flags w).trace).map (targetPathOf flags)).Nodup := by
    refine List.Nodup.map_on ?_ hnd
    intro x hx y hy hxy
    obtain ⟨h1, h2⟩ := filepathJoin_injective flags.targetPath x.1 x.2 y.1 y.2
      (hgood x hx).1 (hgood y hy).1 (hgood x hx).2 (hgood y hy).2 hxy
    exact Prod.ext h1 h2
  obtain ⟨⟨⟨r1, hm⟩, ⟨r2, hc⟩⟩, -⟩ := main_passed env flags w
  refine ⟨?_, ?_⟩
  · rw [hm] at hmap
    exact List.Nodup.of_append_left hmap
  · have hc1 := congrArg (List.map Prod.fst) hc
    simp only [List.map_map, List.map_append] at hc1
    have hfst : (Prod.fst ∘ fun sr => (targetPathOf flags sr, flags.bareClone))
        = targetPathOf flags := rfl
    rw [hfst] at hc1
    rw [hc1] at hmap
    exact List.Nodup.of_append_left hmap

end Whole

/-! ## The claims -/

section Claims

variable {W : Type}

/-- C3: when the run reaches a source whose `Test` fails, under either
failure policy, the only things that happen after the sources before it are
the header line, the failed test and the line reporting it: the sources
listed are exactly the earlier ones, no directory is created and no clone is
attempted for this source or a later one, and the process exits with code
110, which no run ending in the clone-failure outcome exits with. -/
theorem C3_failed_test_ends_the_run (env : Env W) (flags : Flags) (w : W) (cfg : Config W)
    (w1 : W) (before : List (RepositorySource W)) (src : RepositorySource W)
    (after : List (RepositorySource W)) (evs : List Event) (rc er : Nat) (w2 : W)
    (err : GoError) (w3 : W) (hv : flags.printVersion = false)
    (hload : env.LoadFile flags.configFilePath w = (.ok cfg, w1))
    (hsrc : cfg.GetSources = before ++ src :: after)
    (hbefore : sourcesLoop env flags before 0 0 w1 = (evs, .next rc er w2))
    (htest : src.Test w2 = (some err, w3)) :
    (main env flags w).trace = startEvents flags ++ evs ++
      [Event.log (.sourceHeader src.GetName), Event.test src.GetName false,
        Event.log (.failedVerify src.GetName err)] ∧
    listedSources (main env flags w).trace = before.map (fun s => s.GetName) ∧
    cloneAttempts (main env flags w).trace = cloneAttempts evs ∧
    (main env flags w).exitCode = 110 ∧
    ∀ (env2 : Env W) (flags2 : Flags) (w4 : W),
      ((flags2.failAtEnd = false ∧
          ∃ e ∈ (main env2 flags2 w4).trace, e.isCloneFailure = true) ∨
        (∃ rc2 er2, 0 < er2 ∧
          Event.log (.summary rc2 er2) ∈ (main env2 flags2 w4).trace)) →
      (main env2 flags2 w4).exitCode ≠ (main env flags w).exitCode := by
  have hne : cfg.GetSources ≠ [] := by rw [hsrc]; simp
  have hm := main_of_load env flags w cfg w1 hv hload hne
  rw [hsrc, sourcesLoop_append env flags before (src :: after) 0 0 w1 evs rc er w2 hbefore,
    sourcesLoop_test_fails env flags src after rc er w2 w3 err htest] at hm
  have hcov := sourcesLoop_covered env flags before 0 0 w1
  rw [hbefore] at hcov
  obtain ⟨hc1, -⟩ := hcov
  simp only at hc1
  obtain ⟨hs1, hs2, hs3, hs4⟩ := startEvents_reading flags
  have ht : (main env flags w).trace = startEvents flags ++ evs ++
      [Event.log (.sourceHeader src.GetName), Event.test src.GetName false,
        Event.log (.failedVerify src.GetName err)] := by
    rw [hm]; simp [finish, emit]
  have hx : (main env flags w).exitCode = 110 := by rw [hm]; rfl
  refine ⟨ht, ?_, ?_, hx, ?_⟩
  · rw [ht]; simp [listedSources_append, hs4, hc1, listedSources]
  · rw [ht]; simp [cloneAttempts_append, hs1, cloneAttempts]
  · intro env2 flags2 w4 h
    rw [main_cloneFailure_code env2 flags2 w4 h, hx]
    decide

/-- Witness of C3: the second of three sources fails its test: the first
source is backed up, nothing is listed or cloned for the second and third,
and the run exits with code 110; and a single source whose test fails gives
no clone attempt at all. -/
theorem C3_witness :
    (sampleRun brokenSecond true).exitCode = 110 ∧
    listedSources (sampleRun brokenSecond true).trace = ["one"] ∧
    cloneAttempts (sampleRun brokenSecond true).trace = [("one", "a/b")] ∧
    (sampleRun brokenSource false).exitCode = 110 ∧
    cloneAttempts (sampleRun brokenSource false).trace = [] := by
  have h := C3_failed_test_ends_the_run (sampleEnv brokenSecond []) (sampleFlags true false) ()
    ⟨brokenSecond⟩ () [sampleSource "one" true (some [sampleRepo "a/b" true])]
    (sampleSource "two" false (some [sampleRepo "c/d" true]))
    [sampleSource "three" true (some [sampleRepo "e/f" true])]
    [.log (.sourceHeader "one"), .test "one" true, .listRepositories "one" (some ["a/b"]),
      .log (.discovered "a/b"), .mkdirAll "one" "a/b" "backup/one/a/b" true,
      .cloneInto "one" "a/b" "backup/one/a/b" false true]
    1 0 () "unauthorized" () rfl rfl rfl rfl rfl
  have h0 := C3_failed_test_ends_the_run (sampleEnv brokenSource []) (sampleFlags false false)
    () ⟨brokenSource⟩ () [] (sampleSource "one" false (some [sampleRepo "a/b" true])) []
    [] 0 0 () "unauthorized" () rfl rfl rfl rfl rfl
  exact ⟨h.2.2.2.1, h.2.1, h.2.2.1, h0.2.2.2.1, h0.2.2.1⟩

/-- C5: when the configuration has no source, whatever the flags, the run
exits with code 111 and calls neither `Test`, `ListRepositories`, `MkdirAll`
nor `CloneInto`; the exit codes of the program are 0, 1, 100, 110 and 111,
and a run that exits with 111 is a run that found no source. -/
theorem C5_no_sources (env : Env W) (flags : Flags) (w : W) (cfg : Config W) (w1 : W)
    (hv : flags.printVersion = false)
    (hload : env.LoadFile flags.configFilePath w = (.ok cfg, w1))
    (hempty : cfg.GetSources = []) :
    (main env flags w).exitCode = 111 ∧
    (∀ e ∈ (main env flags w).trace, e.isBackupCall = false) ∧
    ∀ (env2 : Env W) (flags2 : Flags) (w2 : W),
      ((main env2 flags2 w2).exitCode = 0 ∨ (main env2 flags2 w2).exitCode = 1 ∨
        (main env2 flags2 w2).exitCode = 100 ∨ (main env2 flags2 w2).exitCode = 110 ∨
        (main env2 flags2 w2).exitCode = 111) ∧
      ((main env2 flags2 w2).exitCode = 111 →
        Event.log (.noSources flags2.configFilePath) ∈ (main env2 flags2 w2).trace) := by
  rw [main_of_empty env flags w cfg w1 hv hload hempty]
  refine ⟨rfl, ?_, fun env2 flags2 w2 => main_exitCode env2 flags2 w2⟩
  intro e he
  simp only [List.mem_append, List.mem_singleton] at he
  rcases he with he | rfl
  · have := startEvents_inert flags e he
    simp only [Event.inert, Bool.and_eq_true, Bool.not_eq_true'] at this
    exact this.1
  · rfl

/-- Witness of C5: a configuration without sources, under each failure policy
and bare-clone flag. -/
theorem C5_witness :
    (main (sampleEnv [] []) (sampleFlags true true) ()).exitCode = 111 ∧
    (main (sampleEnv [] []) (sampleFlags false false) ()).exitCode = 111 ∧
    (main (sampleEnv [] []) (sampleFlags false false) ()).trace
      = [.log (.insecure false), .loadFile "git-backup.yml" true,
          .log (.noSources "git-backup.yml")] :=
  ⟨(C5_no_sources (sampleEnv [] []) (sampleFlags true true) () ⟨[]⟩ () rfl rfl rfl).1,
    (C5_no_sources (sampleEnv [] []) (sampleFlags false false) () ⟨[]⟩ () rfl rfl rfl).1,
    by decide⟩

/-- C8, as stated, fails: with distinct source names and one repository each,
source `a` with repository `b/c` and source `a/b` with repository `c` get the
same target path, and the run creates and clones into that one directory
twice; within one source the distinct full names `b` and `b/` collide too. -/
theorem C8_counterexample :
    ("a", "b/c") ≠ (("a/b", "c") : String × String) ∧
    filepathJoin ["backup", "a", "b/c"] = filepathJoin ["backup", "a/b", "c"] ∧
    ("a", "b") ≠ (("a", "b/") : String × String) ∧
    filepathJoin ["backup", "a", "b"] = filepathJoin ["backup", "a", "b/"] ∧
    Event.cloneInto "a" "b/c" "backup/a/b/c" false true
      ∈ (sampleRun [sampleSource "a" true (some [sampleRepo "b/c" true]),
          sampleSource "a/b" true (some [sampleRepo "c" true])] true).trace ∧
    Event.cloneInto "a/b" "c" "backup/a/b/c" false true
      ∈ (sampleRun [sampleSource "a" true (some [sampleRepo "b/c" true]),
          sampleSource "a/b" true (some [sampleRepo "c" true])] true).trace := by
  decide

/-- C8, amended: when the source names are single path elements (not empty,
without separator, neither `.` nor `..`) and the repository full names are made
of such elements separated by single separators, two distinct (source,
repository) pairs get different target paths under every root; in every run
the directories created for two such pairs are different; and in a run whose
listed repositories are pairwise distinct with such names, no path is passed
twice to `MkdirAll` and none twice to `CloneInto`. -/
theorem C8_target_paths_distinct (root s1 r1 s2 r2 : String)
    (hs1 : isPathSegment s1 = true) (hs2 : isPathSegment s2 = true)
    (hr1 : isCleanRelative r1 = true) (hr2 : isCleanRelative r2 = true)
    (hne : (s1, r1) ≠ (s2, r2)) :
    filepathJoin [root, s1, r1] ≠ filepathJoin [root, s2, r2] ∧
    (∀ (V : Type) (env : Env V) (flags : Flags) (w : V) (p1 p2 : String) (ok1 ok2 : Bool),
      Event.mkdirAll s1 r1 p1 ok1 ∈ (main env flags w).trace →
      Event.mkdirAll s2 r2 p2 ok2 ∈ (main env flags w).trace → p1 ≠ p2) ∧
    (∀ (V : Type) (env : Env V) (flags : Flags) (w : V),
      (listed (main env flags w).trace).Nodup →
      (∀ sr ∈ listed (main env flags w).trace,
        isPathSegment sr.1 = true ∧ isCleanRelative sr.2 = true) →
      (mkdirPaths (main env flags w).trace).Nodup ∧
      ((clonePaths (main env flags w).trace).map Prod.fst).Nodup) := by
  have hjoin : ∀ root : String, filepathJoin [root, s1, r1] ≠ filepathJoin [root, s2, r2] := by
    intro root h
    obtain ⟨h1, h2⟩ := filepathJoin_injective root s1 r1 s2 r2 hs1 hs2 hr1 hr2 h
    exact hne (by rw [h1, h2])
  refine ⟨hjoin root, ?_, ?_⟩
  · intro V env flags w p1 p2 ok1 ok2 h1 h2 h
    have h3 : p1 = filepathJoin [flags.targetPath, s1, r1] := main_pathOK env flags w _ h1
    have h4 : p2 = filepathJoin [flags.targetPath, s2, r2] := main_pathOK env flags w _ h2
    exact hjoin flags.targetPath (by rw [← h3, ← h4, h])
  · intro V env flags w hnd hgood
    exact main_paths_nodup env flags w hnd hgood

/-- Witness of C8 amended: two repositories of one source, one full name
under two sources, and the run over two sources, which creates two different
directories. -/
theorem C8_witness :
    filepathJoin ["backup", "work", "team/project"] ≠ filepathJoin ["backup", "work", "team/other"] ∧
    filepathJoin ["/srv/../x", "work", "team/project"]
      ≠ filepathJoin ["/srv/../x", "home", "team/project"] ∧
    (mkdirPaths (sampleRun twoSources true).trace).Nodup ∧
    mkdirPaths (sampleRun twoSources true).trace = ["backup/one/a/b", "backup/two/c/d"] :=
  ⟨(C8_target_paths_distinct "backup" "work" "team/project" "work" "team/other"
      (by decide) (by decide) (by decide) (by decide) (by decide)).1,
    (C8_target_paths_distinct "/srv/../x" "work" "team/project" "home" "team/project"
      (by decide) (by decide) (by decide) (by decide) (by decide)).1,
    ((C8_target_paths_distinct "backup" "one" "a/b" "two" "c/d"
      (by decide) (by decide) (by decide) (by decide) (by decide)).2.2
      Unit (sampleEnv twoSources []) (sampleFlags true false) () (by decide) (by decide)).1,
    by decide⟩

/-- C9: in every run the paths passed to `MkdirAll` and to `CloneInto` are,
call by call and in order, `filepath.Join(root, source name, full name)` for
the repositories the listings returned, with the bare-clone flag of the run
for `CloneInto`; a run that meets no fatal event makes exactly one such
`MkdirAll` and one such `CloneInto` for every listed repository.  Collaborators
that write down the calls they receive receive, for every list of sources,
every policy and every bare flag, `Test`, `ListRepositories` and then for each
repository `MkdirAll` and `CloneInto` with that path.  The path of a
repository depends on the root, the source name and the full name only.
Source `work` with repository `team/project` gives `backup/work/team/project`
under the root `backup`, and under every root the cleaned root followed by
`/work/team/project` (nothing before `work` when the root is empty or cleans to
the current directory, one separator when it cleans to the root directory). -/
theorem C9_target_path_is_join (env : Env W) (flags : Flags) (w : W) :
    ((∃ rest, (listed (main env flags w).trace).map (targetPathOf flags)
        = mkdirPaths (main env flags w).trace ++ rest) ∧
      ∃ rest, (listed (main env flags w).trace).map
          (fun sr => (targetPathOf flags sr, flags.bareClone))
        = clonePaths (main env flags w).trace ++ rest) ∧
    ((∀ e ∈ (main env flags w).trace, e.fatalCode flags.failAtEnd = none) →
      mkdirPaths (main env flags w).trace
        = (listed (main env flags w).trace).map (targetPathOf flags) ∧
      clonePaths (main env flags w).trace
        = (listed (main env flags w).trace).map
            (fun sr => (targetPathOf flags sr, flags.bareClone))) ∧
    (∀ (all sources : List (String × List String)) (rc er : Nat) (w0 : List Call),
      (sourcesLoop (recordingEnv all) flags (sources.map recordingSource) rc er w0).2
        = Flow.next (rc + (sources.map (fun sp => sp.2.length)).sum) er
            (w0 ++ sourceCalls flags sources)) ∧
    (∀ s r p ok, Event.mkdirAll s r p ok ∈ (main env flags w).trace →
      p = filepathJoin [flags.targetPath, s, r]) ∧
    (∀ s r p b ok, Event.cloneInto s r p b ok ∈ (main env flags w).trace →
      p = filepathJoin [flags.targetPath, s, r] ∧ b = flags.bareClone) ∧
    (∀ (env2 : Env W) (flags2 : Flags) (w2 : W) s r p p2 b b2 ok ok2,
      flags2.targetPath = flags.targetPath →
      Event.cloneInto s r p b ok ∈ (main env flags w).trace →
      Event.cloneInto s r p2 b2 ok2 ∈ (main env2 flags2 w2).trace → p = p2) ∧
    filepathJoin ["backup", "work", "team/project"] = "backup/work/team/project" ∧
    filepathJoin ["/srv/backup", "work", "team/project"] = "/srv/backup/work/team/project" ∧
    (∀ root : String, isCleanRelative root = true →
      filepathJoin [root, "work", "team/project"] = root ++ "/work/team/project") ∧
    (∀ root : String,
      filepathJoin [root, "work", "team/project"]
        = (if root = "" ∨ filepathClean root = "." then ""
           else if filepathClean root = "/" then "/"
           else filepathClean root ++ "/") ++ "work" ++ "/" ++ "team/project") := by
  refine ⟨(main_passed env flags w).1, (main_passed env flags w).2, ?_, ?_, ?_, ?_,
    by decide, by decide, ?_, ?_⟩
  · intro all sources rc er w0
    exact sourcesLoop_recording flags all sources rc er w0
  · intro s r p ok h
    exact main_pathOK env flags w _ h
  · intro s r p b ok h
    exact main_pathOK env flags w _ h
  · intro env2 flags2 w2 s r p p2 b b2 ok ok2 hroot h h2
    have h3 : p = filepathJoin [flags.targetPath, s, r] := (main_pathOK env flags w _ h).1
    have h4 : p2 = filepathJoin [flags2.targetPath, s, r] := (main_pathOK env2 flags2 w2 _ h2).1
    rw [h3, h4, hroot]
  · intro root hroot
    rw [filepathJoin_clean_relative_root root "work" "team/project" hroot (by decide)
      (by decide)]
    apply String.ext
    simp [String.data_append]
  · intro root
    exact filepathJoin_every_root root "work" "team/project" (by decide) (by decide)

/-- Witness of C9: the run over source `work` with repository `team/project`
calls `MkdirAll` once, with `backup/work/team/project`, and `CloneInto` once,
with that path and the bare flag of the run; collaborators that write down
their calls receive exactly these. -/
theorem C9_witness :
    mkdirPaths (main (sampleEnv workSource []) (sampleFlags false false) ()).trace
      = ["backup/work/team/project"] ∧
    clonePaths (main (sampleEnv workSource []) (sampleFlags true true) ()).trace
      = [("backup/work/team/project", true)] ∧
    (sourcesLoop (recordingEnv []) (sampleFlags false true)
        [recordingSource ("work", ["team/project"])] 0 0 []).2
      = Flow.next 1 0 [Call.test "work", Call.listRepositories "work",
          Call.mkdirAll "backup/work/team/project",
          Call.cloneInto "team/project" "backup/work/team/project" true] :=
  ⟨((C9_target_path_is_join (sampleEnv workSource []) (sampleFlags false false) ()).2.1
      (by decide)).1.trans (by decide),
    ((C9_target_path_is_join (sampleEnv workSource []) (sampleFlags true true) ()).2.1
      (by decide)).2.trans (by decide),
    ((C9_target_path_is_join (sampleEnv workSource []) (sampleFlags false true) ()).2.2.1
      [] [("work", ["team/project"])] 0 0 []).trans
      (by
        have h : (([] : List Call) ++ sourceCalls (sampleFlags false true)
            [("work", ["team/project"])])
            = [Call.test "work", Call.listRepositories "work",
                Call.mkdirAll "backup/work/team/project",
                Call.cloneInto "team/project" "backup/work/team/project" true] := by decide
        rw [h]
        rfl)⟩

/-- C4, as stated, fails: a run that ends because `ListRepositories` failed
exits with code 100, the code of a run that ends because a clone failed, and
not with code 110, the code of a run that ends because `Test` failed. -/
theorem C4_counterexample :
    Event.listRepositories "one" none ∈ (sampleRun unlistable false).trace ∧
    (sampleRun unlistable false).exitCode = 100 ∧
    Event.test "one" false ∈ (sampleRun brokenSource false).trace ∧
    (sampleRun brokenSource false).exitCode = 110 ∧
    (sampleRun oneFailing false).exitCode = 100 ∧
    (sampleRun oneFailing true).exitCode = 100 ∧
    ¬ ((sampleRun unlistable false).exitCode = (sampleRun brokenSource false).exitCode ∧
      (sampleRun unlistable false).exitCode ≠ (sampleRun oneFailing false).exitCode) := by
  decide

/-- C4, amended: a failed `Test` exits with 110; a failed `ListRepositories`,
a failed `MkdirAll` and the clone-failure outcome (the exit at a failed clone
under fail-fast, the summary counting errors) all exit with 100; a
configuration without sources exits with 111; and a run that exits with 0 met
no failed call at all. -/
theorem C4_exit_code_classes (env : Env W) (flags : Flags) (w : W) :
    (∀ s, Event.test s false ∈ (main env flags w).trace → (main env flags w).exitCode = 110) ∧
    (∀ s, Event.listRepositories s none ∈ (main env flags w).trace →
      (main env flags w).exitCode = 100) ∧
    (∀ s r p, Event.mkdirAll s r p false ∈ (main env flags w).trace →
      (main env flags w).exitCode = 100) ∧
    (flags.failAtEnd = false → ∀ s r p b,
      Event.cloneInto s r p b false ∈ (main env flags w).trace →
      (main env flags w).exitCode = 100) ∧
    (∀ rc er, 0 < er → Event.log (.summary rc er) ∈ (main env flags w).trace →
      (main env flags w).exitCode = 100) ∧
    (∀ cfg w1, flags.printVersion = false →
      env.LoadFile flags.configFilePath w = (.ok cfg, w1) → cfg.GetSources = [] →
      (main env flags w).exitCode = 111) ∧
    ((main env flags w).exitCode = 0 →
      ∀ e ∈ (main env flags w).trace, e.isSetupFailure = false ∧ e.isCloneFailure = false) := by
  refine ⟨?_, ?_, ?_, ?_, ?_, ?_, main_exit_zero env flags w⟩
  · intro s h
    obtain ⟨pre, post, hsplit⟩ := List.append_of_mem h
    exact (main_fatal env flags w pre post _ 110 hsplit rfl).1
  · intro s h
    obtain ⟨pre, post, hsplit⟩ := List.append_of_mem h
    exact (main_fatal env flags w pre post _ 100 hsplit rfl).1
  · intro s r p h
    obtain ⟨pre, post, hsplit⟩ := List.append_of_mem h
    exact (main_fatal env flags w pre post _ 100 hsplit rfl).1
  · intro hff s r p b h
    exact main_cloneFailure_code env flags w (Or.inl ⟨hff, _, h, rfl⟩)
  · intro rc er hpos h
    exact main_cloneFailure_code env flags w (Or.inr ⟨rc, er, hpos, h⟩)
  · intro cfg w1 hv hload hempty
    rw [main_of_empty env flags w cfg w1 hv hload hempty]

/-- Witness of C4 amended: the exit codes of a failed listing, a failed test,
a failed clone under each policy, no sources, and a clean run. -/
theorem C4_witness :
    (sampleRun unlistable false).exitCode = 100 ∧
    (sampleRun brokenSource false).exitCode = 110 ∧
    (sampleRun oneFailing false).exitCode = 100 ∧
    (sampleRun oneFailing true).exitCode = 100 ∧
    (sampleRun [] false).exitCode = 111 ∧
    (sampleRun emptySource false).exitCode = 0 :=
  ⟨(C4_exit_code_classes (sampleEnv unlistable []) (sampleFlags false false) ()).2.1
      "one" (by decide),
    (C4_exit_code_classes (sampleEnv brokenSource []) (sampleFlags false false) ()).1
      "one" (by decide),
    (C4_exit_code_classes (sampleEnv oneFailing []) (sampleFlags false false) ()).2.2.2.1
      rfl "one" "a/b" "backup/one/a/b" false (by decide),
    (C4_exit_code_classes (sampleEnv oneFailing []) (sampleFlags true false) ()).2.2.2.2.1
      1 1 (by decide) (by decide),
    (C4_exit_code_classes (sampleEnv [] []) (sampleFlags false false) ()).2.2.2.2.2.1
      ⟨[]⟩ () rfl rfl rfl,
    by decide⟩

/-- C6, as stated, fails: under fail-fast a run aborted by a failed clone
exits with code 100 without producing the summary. -/
theorem C6_counterexample :
    Event.cloneInto "one" "a/b" "backup/one/a/b" false false
      ∈ (sampleRun oneFailing false).trace ∧
    (sampleRun oneFailing false).exitCode = 100 ∧
    (∀ e ∈ (sampleRun oneFailing false).trace, e.isSummary = false) ∧
    (sampleRun oneFailing false).trace
      = [.log (.insecure false), .loadFile "git-backup.yml" true, .log (.sourceHeader "one"),
          .test "one" true, .listRepositories "one" (some ["a/b"]), .log (.discovered "a/b"),
          .mkdirAll "one" "a/b" "backup/one/a/b" true,
          .cloneInto "one" "a/b" "backup/one/a/b" false false,
          .log (.failedClone "clone failed")] := by
  decide

/-- C6, amended: the summary is produced exactly when the loop over the
sources runs to its end.  A run that meets a fatal event (a failed `Test`,
`ListRepositories` or `MkdirAll`, or a failed clone under fail-fast) produces
no summary.  A summary, when produced, is the last event of the run, carries
the number of clone attempts and of failed clone attempts, and is followed by
exit code 100 when it counts an error and 0 otherwise.  A run that reaches the
loop and meets no fatal event, such as a fail-at-end run with failed clones,
produces the summary. -/
theorem C6_summary_when_loop_completes (env : Env W) (flags : Flags) (w : W) :
    ((∃ e ∈ (main env flags w).trace, (e.fatalCode flags.failAtEnd).isSome = true) →
      ∀ x ∈ (main env flags w).trace, x.isSummary = false) ∧
    (∀ rc er, Event.log (.summary rc er) ∈ (main env flags w).trace →
      (∃ pre, (main env flags w).trace = pre ++ [Event.log (.summary rc er)]) ∧
      rc = (cloneAttempts (main env flags w).trace).length ∧
      er = failedClones (main env flags w).trace ∧
      (main env flags w).exitCode = if er > 0 then 100 else 0) ∧
    (∀ cfg w1, flags.printVersion = false →
      env.LoadFile flags.configFilePath w = (.ok cfg, w1) → cfg.GetSources ≠ [] →
      (∀ e ∈ (main env flags w).trace, e.fatalCode flags.failAtEnd = none) →
      ∃ rc er, Event.log (.summary rc er) ∈ (main env flags w).trace) := by
  refine ⟨?_, ?_, ?_⟩
  · rintro ⟨e, he, hf⟩ x hx
    obtain ⟨c, hc⟩ := Option.isSome_iff_exists.mp hf
    obtain ⟨pre, post, hsplit⟩ := List.append_of_mem he
    obtain ⟨-, ⟨l, hl, hrep⟩, hq⟩ := main_fatal env flags w pre post e c hsplit hc
    rw [hsplit, hl] at hx
    simp only [List.mem_append, List.mem_cons, List.mem_singleton, List.not_mem_nil,
      or_false] at hx
    rcases hx with hx | rfl | rfl
    · exact isSummary_of_quiet (hq x hx)
    · exact isSummary_of_fatal hc
    · exact isSummary_of_reportedBy hrep
  · intro rc er h
    obtain ⟨⟨pre, hpre, -⟩, hrc, her, hx, -⟩ := main_summary env flags w rc er h
    exact ⟨⟨pre, hpre⟩, hrc, her, hx⟩
  · intro cfg w1 hv hload hne hq
    exact (main_complete env flags w cfg w1 hv hload hne hq).1

/-- Witness of C6 amended: under fail-at-end the run of two sources with one
failed clone ends with the summary of 2 processed and 1 error and exits with
code 100; under fail-fast the aborted run has no summary. -/
theorem C6_witness :
    (sampleRun twoSources true).exitCode = (if 1 > 0 then 100 else 0) ∧
    (∀ x ∈ (sampleRun oneFailing false).trace, x.isSummary = false) ∧
    (∃ rc er, Event.log (.summary rc er) ∈ (sampleRun twoSources true).trace) :=
  ⟨((C6_summary_when_loop_completes (sampleEnv twoSources []) (sampleFlags true false) ()).2.1
      2 1 (by decide)).2.2.2,
    (C6_summary_when_loop_completes (sampleEnv oneFailing []) (sampleFlags false false) ()).1
      ⟨.cloneInto "one" "a/b" "backup/one/a/b" false false, by decide, rfl⟩,
    (C6_summary_when_loop_completes (sampleEnv twoSources []) (sampleFlags true false) ()).2.2
      ⟨twoSources⟩ () rfl rfl (by simp [twoSources]) (by decide)⟩

end Claims

end GitBackup
